import Mathlib

/-!
Verification of the Fluidoracle hybrid retrieval and confidence-assessment
engine (`core/retrieval/hybrid_search.py`, `core/retrieval/verified_query.py`,
`core/retrieval/config.py`).

Scores are embedded as rationals (`ℚ`); Python dict/list operations are
embedded as association lists and plain lists.  External dependencies
(ChromaDB collections, the OpenAI embedding endpoint, the BM25 index, the
cross-encoder model, the vendor database `oracle.db`) are modelled as
parameters: channel outputs are lists of hits, the parent store is a partial
map `String → Option String`, the cross-encoder is a function from
`(query, parent_text)` to a rational logit, and vendor patterns are an
ordered list of boolean predicates paired with manufacturer names.
-/

namespace Fluidoracle

/-! ### Generic helpers: descending sort by a rational key

`list.sort(key=..., reverse=True)` in the source is embedded as an insertion
sort that places larger keys first. -/

/-- Insert `a` into `l`, keeping larger keys of `key` first. -/
def insertDesc (key : α → ℚ) (a : α) : List α → List α
  | [] => [a]
  | b :: bs => if key b ≤ key a then a :: b :: bs else b :: insertDesc key a bs

/-- Sort a list so that the `key` values are non-increasing
(embedding of Python `sort(key=..., reverse=True)`). -/
def sortByKeyDesc (key : α → ℚ) : List α → List α
  | [] => []
  | a :: as => insertDesc key a (sortByKeyDesc key as)

/-! ### Generic helpers: association lists (Python `dict` embedding) -/

/-- Lookup in an association list: the value of the first pair whose key is
`c` (embedding of `dict` access when keys are unique). -/
def alistLookup {β : Type} : List (String × β) → String → Option β
  | [], _ => none
  | (k, v) :: rest, c => if k = c then some v else alistLookup rest c

/-! ### Generic helpers: positions -/

/-- Zero-based index of the first occurrence of `c`; the list's length when
`c` is absent. -/
def posOf : List String → String → ℕ
  | [], _ => 0
  | a :: l, c => if a = c then 0 else posOf l c + 1

/-! ### Generic helpers: rounding

Python `round(x, n)` and `f-string` float formatting round half to even; the
engine rounds its returned scores to four decimal places and the overlap in a
contradiction record to three. -/

/-- Round a rational to the nearest integer, ties to even
(the rounding used by Python `round`). -/
def roundHalfEven (x : ℚ) : ℤ :=
  if x - (⌊x⌋ : ℚ) < 1/2 then ⌊x⌋
  else if 1/2 < x - (⌊x⌋ : ℚ) then ⌊x⌋ + 1
  else if ⌊x⌋ % 2 = 0 then ⌊x⌋ else ⌊x⌋ + 1

/-- Embedding of Python `round(x, 4)`. -/
def roundQ4 (x : ℚ) : ℚ := (roundHalfEven (x * 10000) : ℚ) / 10000

/-- Embedding of Python `round(x, 3)`. -/
def roundQ3 (x : ℚ) : ℚ := (roundHalfEven (x * 1000) : ℚ) / 1000


/-- Config constant `SEMANTIC_WEIGHT = 0.60`. -/
def SEMANTIC_WEIGHT : ℚ := 3/5

/-- Config constant `BM25_WEIGHT = 0.40`. -/
def BM25_WEIGHT : ℚ := 2/5

/-- Config constant `RERANK_CANDIDATES = 20`. -/
def RERANK_CANDIDATES : ℕ := 20

/-- Config constant `FINAL_TOP_K = 10`. -/
def FINAL_TOP_K : ℕ := 10

/-- Config constant `HIGH_CONFIDENCE_THRESHOLD = 0.75`. -/
def HIGH_CONFIDENCE_THRESHOLD : ℚ := 3/4

/-- Config constant `MEDIUM_CONFIDENCE_THRESHOLD = 0.40`. -/
def MEDIUM_CONFIDENCE_THRESHOLD : ℚ := 2/5

/-! ### Data model

A channel hit is the dict built by `_semantic_search` / `_bm25_search`:
`{child_id, child_text, metadata, semantic_score, bm25_score, source}`.
The metadata dict is embedded by the two keys the engine reads from it,
`parent_id` and `source` (absent keys are `none`).  The per-channel
`source` tag (`"semantic"`/`"bm25"`) is overwritten by `_merge_results`
and is therefore carried on the fused record as `origin`. -/

structure SearchHit where
  child_id : String
  child_text : String
  md_parent_id : Option String
  md_source : Option String
  semantic_score : ℚ
  bm25_score : ℚ
  deriving Repr, DecidableEq

/-- A fused candidate produced by `_merge_results`: the merged hit dict plus
`combined_score` and the `source` tag (`origin` here). -/
structure Fused extends SearchHit where
  combined_score : ℚ
  origin : String
  deriving Repr, DecidableEq

/-- A candidate after `_resolve_parents`: the fused dict plus `parent_id` and
`parent_text`. -/
structure Resolved extends Fused where
  parent_id : String
  parent_text : String
  deriving Repr, DecidableEq

/-- The cleaned result dict returned by `search` (scores rounded to four
decimal places, `source` taken from the child metadata). -/
structure RankedResult where
  parent_id : String
  parent_text : String
  child_text : String
  source : String
  rerank_score : ℚ
  semantic_score : ℚ
  bm25_score : ℚ
  combined_score : ℚ
  deriving Repr, DecidableEq

/-! ### Query classifier (`_SPEC_QUERY_PATTERNS`, `_adaptive_weights`)

The source compiles the case-insensitive regex

```
(ISO\s*\d{3,5}|NAS\s*\d{3,4}|SAE\s*AS?\s*\d{3,4}|ASTM\s*D\s*\d{3,4}
|β[_\s]*\d|beta\s*ratio|µm\s*\(c\)|micron
|part\s*#|model\s*#|P/N\s*\d|cat(alog)?\s*#
|\b[A-Z]{2,4}[-\s]?\d{4,})
```

and tests `search(query)` (a match anywhere in the string).  The embedding
scans every suffix of the query and checks each alternative; a counted
repetition `\d{m,n}` matches at some suffix position exactly when at least
`m` digits follow, so existence of a match only needs the lower bound. -/

/-- Drop leading whitespace (`\s*`). -/
def dropSpaces : List Char → List Char
  | [] => []
  | c :: rest => if c.isWhitespace then dropSpaces rest else c :: rest

/-- Drop leading whitespace or underscores (`[_\s]*`). -/
def dropSpacesUnderscore : List Char → List Char
  | [] => []
  | c :: rest => if c.isWhitespace || c == '_' then dropSpacesUnderscore rest else c :: rest

/-- At least `n` leading ASCII digits (`\d{n,}` viewed as existence). -/
def leadingDigitsGE (n : ℕ) (l : List Char) : Bool :=
  n ≤ (l.takeWhile Char.isDigit).length

/-- Case-insensitive literal match; returns the rest of the input on success.
The literal is given in lowercase. -/
def litMatch : List Char → List Char → Option (List Char)
  | [], rest => some rest
  | _ :: _, [] => none
  | c :: cs, d :: ds => if d.toLower == c then litMatch cs ds else none

/-- Alternatives of the form `ISO\s*\d{3,5}` / `NAS\s*\d{3,4}`: literal, optional spaces, at
least `n` digits. -/
def litSpacesDigits (lit : List Char) (n : ℕ) (l : List Char) : Bool :=
  match litMatch lit l with
  | some rest => leadingDigitsGE n (dropSpaces rest)
  | none => false

/-- Alternative `SAE\s*AS?\s*\d{3,4}`. -/
def saePattern (l : List Char) : Bool :=
  match litMatch [ 's', 'a', 'e'] l with
  | none => false
  | some r =>
    match dropSpaces r with
    | [] => false
    | c :: r2 =>
      if c.toLower == 'a' then
        (match r2 with
         | d :: r3 => d.toLower == 's' && leadingDigitsGE 3 (dropSpaces r3)
         | [] => false)
        || leadingDigitsGE 3 (dropSpaces r2)
      else false

/-- Alternative `ASTM\s*D\s*\d{3,4}`. -/
def astmPattern (l : List Char) : Bool :=
  match litMatch [ 'a', 's', 't', 'm'] l with
  | none => false
  | some r =>
    match dropSpaces r with
    | [] => false
    | c :: r2 => c.toLower == 'd' && leadingDigitsGE 3 (dropSpaces r2)

/-- Alternative `β[_\s]*\d` (case-insensitively `β` also matches the capital `Β`). -/
def betaSymbolPattern (l : List Char) : Bool :=
  match l with
  | [] => false
  | c :: r =>
    (c == 'β' || c == 'Β') &&
      (match dropSpacesUnderscore r with
       | d :: _ => d.isDigit
       | [] => false)

/-- Alternative `beta\s*ratio`. -/
def betaWordPattern (l : List Char) : Bool :=
  match litMatch [ 'b', 'e', 't', 'a'] l with
  | none => false
  | some r => (litMatch [ 'r', 'a', 't', 'i', 'o'] (dropSpaces r)).isSome

/-- Alternative `µm\s*\(c\)` (the micro sign; the Greek small mu also case-folds to it). -/
def micronSignPattern (l : List Char) : Bool :=
  match l with
  | [] => false
  | c :: r =>
    (c == 'µ' || c == 'μ') &&
      (match r with
       | m :: r2 =>
         m.toLower == 'm' &&
           (litMatch [ '(', 'c', ')'] (dropSpaces r2)).isSome
       | [] => false)

/-- Alternatives `part\s*#` / `model\s*#`: literal, optional spaces, then a hash. -/
def litSpacesHash (lit : List Char) (l : List Char) : Bool :=
  match litMatch lit l with
  | some rest =>
    (match dropSpaces rest with
     | c :: _ => c == '#'
     | [] => false)
  | none => false

/-- Alternative `P/N\s*\d`. -/
def pnPattern (l : List Char) : Bool :=
  match litMatch [ 'p', '/', 'n'] l with
  | some rest => leadingDigitsGE 1 (dropSpaces rest)
  | none => false

/-- Alternative `cat(alog)?\s*#`. -/
def catPattern (l : List Char) : Bool :=
  match litMatch [ 'c', 'a', 't'] l with
  | none => false
  | some r =>
    (match litMatch [ 'a', 'l', 'o', 'g'] r with
     | some r2 => litSpacesHash [] r2
     | none => false)
    || litSpacesHash [] r

/-- Tail `[-\s]?\d{4,}`: optional single hyphen or space, then at least four
digits. -/
def partNumberTail (l : List Char) : Bool :=
  leadingDigitsGE 4 l ||
    (match l with
     | c :: r => (c == '-' || c.isWhitespace) && leadingDigitsGE 4 r
     | [] => false)

/-- Alternative `[A-Z]{2,4}[-\s]?\d{4,}` after a word boundary (case-insensitive, so any
ASCII letters). -/
def partNumberCore (l : List Char) : Bool :=
  match l with
  | a :: b :: r =>
    a.isAlpha && b.isAlpha &&
      (partNumberTail r ||
        (match r with
         | c :: r2 =>
           c.isAlpha &&
             (partNumberTail r2 ||
               (match r2 with
                | d :: r3 => d.isAlpha && partNumberTail r3
                | [] => false))
         | [] => false))
  | _ => false

/-- Python `\w` over the queries in scope: ASCII alphanumeric or underscore. -/
def isWordChar (c : Char) : Bool := c.isAlphanum || c == '_'

/-- Does any alternative of `_SPEC_QUERY_PATTERNS` match at this suffix?
`prevWord` says whether the previous character is a word character (for the
`\b` in the part-number alternative). -/
def specMatchAt (prevWord : Bool) (l : List Char) : Bool :=
  litSpacesDigits [ 'i', 's', 'o'] 3 l
  || litSpacesDigits [ 'n', 'a', 's'] 3 l
  || saePattern l
  || astmPattern l
  || betaSymbolPattern l
  || betaWordPattern l
  || micronSignPattern l
  || (litMatch [ 'm', 'i', 'c', 'r', 'o', 'n'] l).isSome
  || litSpacesHash [ 'p', 'a', 'r', 't'] l
  || litSpacesHash [ 'm', 'o', 'd', 'e', 'l'] l
  || pnPattern l
  || catPattern l
  || (!prevWord && partNumberCore l)

/-- Scan all suffixes (embedding of `re.search`). -/
def specScan (prevWord : Bool) : List Char → Bool
  | [] => false
  | c :: rest => specMatchAt prevWord (c :: rest) || specScan (isWordChar c) rest

/-- Embedding of `_SPEC_QUERY_PATTERNS.search(query) is not None`. -/
def specQueryPatterns (query : String) : Bool := specScan false query.toList

/-- Constant `SPEC_SEMANTIC_WEIGHT = 0.25`. -/
def SPEC_SEMANTIC_WEIGHT : ℚ := 1/4

/-- Constant `SPEC_BM25_WEIGHT = 0.75`. -/
def SPEC_BM25_WEIGHT : ℚ := 3/4

/-- Embedding of `_adaptive_weights`: `(semantic_weight, bm25_weight)` from
the query text alone. -/
def adaptiveWeights (query : String) : ℚ × ℚ :=
  if specQueryPatterns query then (SPEC_SEMANTIC_WEIGHT, SPEC_BM25_WEIGHT)
  else (SEMANTIC_WEIGHT, BM25_WEIGHT)

/-- Embedding of the weight-selection logic at the top of `search`
(lines 486–491): explicit caller overrides beat query-adaptive weights; a
missing half of an explicit override falls back to the config default. -/
def selectWeights (semantic_weight bm25_weight : Option ℚ) (query : String) : ℚ × ℚ :=
  if semantic_weight.isSome || bm25_weight.isSome then
    (semantic_weight.getD SEMANTIC_WEIGHT, bm25_weight.getD BM25_WEIGHT)
  else adaptiveWeights query

/-! ### Stage 1: Reciprocal Rank Fusion (`_merge_results`)

The source builds `semantic_ranks`/`bm25_ranks` by a loop of dict
assignments (`ranks[hit["child_id"]] = rank` for `rank = 1, 2, ...`), so a
repeated `child_id` keeps its *last* rank; the embedding records every
assignment and reads the last one back.  `all_ids` is the set union of the
two key sets; since the merged list is sorted by score afterwards, the set
is embedded as `dedup` of the concatenated id lists. -/

/-- The sequence of `(child_id, rank)` assignments made by
`for rank, hit in enumerate(hits, 1)`: the head gets rank 1 and every
assignment for the tail is shifted up by one. -/
def rankAssignments : List String → List (String × ℕ)
  | [] => []
  | a :: rest => (a, 1) :: (rankAssignments rest).map (fun p => (p.1, p.2 + 1))

/-- The final content of the rank dict at key `cid`: the last assignment
wins. -/
def dictRank (ids : List String) (cid : String) : Option ℕ :=
  alistLookup (rankAssignments ids).reverse cid

/-- Embedding of `ranks.get(cid, len(hits) + 1)`. -/
def chanRank (hits : List SearchHit) (cid : String) : ℕ :=
  (dictRank (hits.map (·.child_id)) cid).getD (hits.length + 1)

/-- One pass of the score-preservation loop body: copy a positive
`semantic_score` and a positive `bm25_score` from `h` onto the accumulated
hit dict. -/
def applyScores (acc h : SearchHit) : SearchHit :=
  let acc2 := if 0 < h.semantic_score then { acc with semantic_score := h.semantic_score } else acc
  if 0 < h.bm25_score then { acc2 with bm25_score := h.bm25_score } else acc2

/-- The `hit_data[cid]` dict: a copy of the first hit carrying `cid` with
both scores zeroed, then updated by every hit carrying `cid` (the source
iterates `semantic_hits + bm25_hits` and updates scores that are `> 0`). -/
def hitData (hits : List SearchHit) (cid : String) : SearchHit :=
  match hits.filter (fun h => h.child_id == cid) with
  | [] =>
    { child_id := cid, child_text := "", md_parent_id := none, md_source := none,
      semantic_score := 0, bm25_score := 0 }
  | m :: rest =>
    (m :: rest).foldl applyScores
      { m with semantic_score := 0, bm25_score := 0 }

/-- Constant `RRF_K = 60`. -/
def RRF_K : ℚ := 60

/-- The fused entry built for one `cid` in the `for cid in all_ids` loop of
`_merge_results`. -/
def mergeEntry (semantic_hits bm25_hits : List SearchHit) (sw bw : ℚ) (cid : String) : Fused :=
  let semRank := dictRank (semantic_hits.map (·.child_id)) cid
  let bmRank := dictRank (bm25_hits.map (·.child_id)) cid
  { toSearchHit := hitData (semantic_hits ++ bm25_hits) cid
    combined_score :=
      sw / (RRF_K + (semRank.getD (semantic_hits.length + 1) : ℚ))
        + bw / (RRF_K + (bmRank.getD (bm25_hits.length + 1) : ℚ))
    origin :=
      if semRank.isSome && bmRank.isSome then ("both")
      else if semRank.isSome then ("semantic")
      else ("bm25") }

/-- The fused candidate list before truncation: one entry per distinct
`child_id`, sorted by `combined_score` descending. -/
def mergeFull (semantic_hits bm25_hits : List SearchHit) (sw bw : ℚ) : List Fused :=
  sortByKeyDesc (fun e => e.combined_score)
    ((((semantic_hits ++ bm25_hits).map (·.child_id)).dedup).map
      (mergeEntry semantic_hits bm25_hits sw bw))

/-- Embedding of `_merge_results`: fuse, sort, truncate to
`max_candidates`. -/
def mergeResults (semantic_hits bm25_hits : List SearchHit) (max_candidates : ℕ)
    (sw bw : ℚ) : List Fused :=
  (mergeFull semantic_hits bm25_hits sw bw).take max_candidates

/-! ### Stage 2: parent resolution (`_resolve_parents`)

The parent ChromaDB collection is modelled as a partial map
`store : String → Option String` from parent id to parent text
(`parent_texts.get(pid, candidate["child_text"])` is its `getD`).  The
`best_per_parent` dict (insertion-ordered, value replaced when a strictly
higher `combined_score` arrives) is embedded as an association list.  The
early-return branch for a missing parent *collection* (an external
deployment failure, lines 361–367) is outside this model; unresolvable
parent *ids* are exactly the `none` values of `store`. -/

/-- Embedding of `candidate["metadata"].get("parent_id", candidate["child_id"])`. -/
def parentIdOf (c : Fused) : String := c.md_parent_id.getD c.child_id

/-- One step of the `best_per_parent` loop. -/
def updateBest (acc : List (String × Fused)) (c : Fused) : List (String × Fused) :=
  let pid := parentIdOf c
  match alistLookup acc pid with
  | none => acc ++ [(pid, c)]
  | some b =>
    if b.combined_score < c.combined_score then
      acc.map (fun p => if p.1 = pid then (pid, c) else p)
    else acc

/-- The `best_per_parent` dict as an association list in insertion order. -/
def bestPerParent (candidates : List Fused) : List (String × Fused) :=
  candidates.foldl updateBest []

/-- Embedding of `_resolve_parents` (parent collection reachable): keep the
best child per parent, attach parent text (falling back to the child's own
text when the id does not resolve), and re-sort by `combined_score`. -/
def resolveParents (store : String → Option String) (candidates : List Fused) :
    List Resolved :=
  sortByKeyDesc (fun r => r.combined_score)
    ((bestPerParent candidates).map (fun p =>
      { toFused := p.2, parent_id := p.1,
        parent_text := (store p.1).getD p.2.child_text }))

/-! ### Stage 3: cross-encoder reranking (`_rerank`)

The cross-encoder is external; its (machine-float) logit for a
`(query, parent_text)` pair is modelled as a rational `ce query text`.  The
source sets `rerank_score = 1/(1 + exp(-logit))` and sorts by it; because
the sigmoid is strictly monotone, sorting by `rerank_score` is sorting by
the logit, which keeps the sort executable.  The sigmoid itself lives in
`ℝ` and the reranked score of a candidate is `rerankScore` below. -/

/-- The logistic normalization applied to a cross-encoder logit. -/
noncomputable def sigmoid (x : ℝ) : ℝ := 1 / (1 + Real.exp (-x))

/-- Value of `candidates[i]["rerank_score"]` after `_rerank`. -/
noncomputable def rerankScore (ce : String → String → ℚ) (query : String)
    (c : Resolved) : ℝ :=
  sigmoid ((ce query c.parent_text : ℚ) : ℝ)

/-- Embedding of `_rerank`: empty input short-circuits; otherwise sort by
the (sigmoid of the) cross-encoder logit, descending, and truncate to
`top_k`. -/
def rerank (ce : String → String → ℚ) (query : String) (candidates : List Resolved)
    (top_k : ℕ) : List Resolved :=
  match candidates with
  | [] => []
  | _ :: _ => (sortByKeyDesc (fun c => ce query c.parent_text) candidates).take top_k

/-! ### The `search` pipeline without the reranker

`search(..., use_reranker=False)` merges, resolves parents, truncates to
`top_k`, stamps `rerank_score = combined_score`, and emits the cleaned
result dicts with all scores rounded to four decimals and `source` drawn
from the child metadata (default `"unknown"`). -/

/-- The clean output dict built at the end of `search` for one result, given
the `rerank_score` value the pipeline assigned. -/
def cleanResult (r : Resolved) (score : ℚ) : RankedResult :=
  { parent_id := r.parent_id
    parent_text := r.parent_text
    child_text := r.child_text
    source := r.md_source.getD ("unknown")
    rerank_score := roundQ4 score
    semantic_score := roundQ4 r.semantic_score
    bm25_score := roundQ4 r.bm25_score
    combined_score := roundQ4 r.combined_score }

/-- Embedding of `search` with `use_reranker=False`: the reranking stage is
skipped and each result's `rerank_score` is its `combined_score`. -/
def searchNoRerank (semantic_hits bm25_hits : List SearchHit)
    (store : String → Option String) (top_k : ℕ) (sw bw : ℚ) : List RankedResult :=
  let candidates := mergeResults semantic_hits bm25_hits RERANK_CANDIDATES sw bw
  match candidates with
  | [] => []
  | _ :: _ =>
    ((resolveParents store candidates).take top_k).map
      (fun r => cleanResult r r.combined_score)

/-! ### Numeric string formatting

Embeddings of the f-string conversions used in `verified_query.py`
(`{x:.3f}` and `{x:.1%}`); Python float formatting rounds half to even. -/

/-- Decimal digits of `n` left-padded with zeros to width 3. -/
def pad3 (n : ℕ) : String :=
  if n < 10 then ("00") ++ toString n
  else if n < 100 then ("0") ++ toString n
  else toString n

/-- Embedding of `f"{x:.3f}"` for the scores being formatted. -/
def fmt3 (x : ℚ) : String :=
  let n := roundHalfEven (x * 1000)
  if n < 0 then "-" ++ toString ((-n).toNat / 1000) ++ "." ++ pad3 ((-n).toNat % 1000)
  else toString (n.toNat / 1000) ++ "." ++ pad3 (n.toNat % 1000)

/-- Embedding of `f"{x:.1%}"`. -/
def fmtPct1 (x : ℚ) : String :=
  let n := roundHalfEven (x * 1000)
  (if n < 0 then "-" ++ toString ((-n).toNat / 10) ++ "." ++ toString ((-n).toNat % 10)
   else toString (n.toNat / 10) ++ "." ++ toString (n.toNat % 10)) ++ "%"

/-! ### Confidence assessment (`assess_confidence`)

Vendor patterns live in the external `oracle.db`
(`manufacturers.filename_patterns`); `_load_vendor_patterns` turns them into
an ordered list of `(compiled_regex, manufacturer_name)` pairs.  They are
modelled as an ordered list of boolean predicates on the source filename
paired with the vendor name; `_detect_vendor` is first-match-wins over that
list. -/

/-- A vendor registry entry: a filename predicate (the compiled regex's
`search`) and the manufacturer name. -/
abbrev VendorPatterns : Type := List ((String → Bool) × String)

/-- Embedding of `_detect_vendor`: first matching pattern wins; `none` for
academic/neutral sources. -/
def detectVendor : VendorPatterns → String → Option String
  | [], _ => none
  | (p, name) :: rest, s => if p s then some name else detectVendor rest s

/-- A contradiction record `{source_1, source_2, overlap, note}`. -/
structure Contradiction where
  source_1 : String
  source_2 : String
  overlap : ℚ
  note : String
  deriving Repr, DecidableEq

/-- The `ConfidenceAssessment` dict returned by `assess_confidence`. -/
structure Assessment where
  level : String
  top_score : ℚ
  num_results : ℕ
  num_high_confidence : ℕ
  num_sources : ℕ
  sources : List String
  contradictions : List Contradiction
  reasoning : String
  dominant_vendor : Option String
  deriving Repr, DecidableEq

/-- Python `str.split()` with no argument: split on whitespace, dropping
empty pieces. -/
def pySplit (s : String) : List String :=
  (s.split Char.isWhitespace).filter (fun w => w ≠ "")

/-- The word-overlap ratio computed in `assess_confidence`:
`len(words1 & words2) / max(len(words1 | words2), 1)` where `words` is the
set of whitespace-separated words of the lowercased text. -/
def jaccardOverlap (t1 t2 : String) : ℚ :=
  let w1 := (pySplit t1.toLower).dedup
  let w2 := (pySplit t2.toLower).dedup
  ((w1.filter (fun w => decide (w ∈ w2))).length : ℚ) / (max ((w1 ++ w2).dedup.length) 1 : ℚ)

/-- The note text of an emitted contradiction record. -/
def contradictionNote : String :=
  "Low content overlap between top results from different sources. Review both."

/-- The contradiction-detection block of `assess_confidence` (lines
249–267): only the top two results are ever compared. -/
def detectContradictions (results : List RankedResult) : List Contradiction :=
  match results with
  | r1 :: r2 :: _ =>
    if 2 ≤ ((results.map (fun r => r.source)).dedup).length
        ∧ r1.source ≠ r2.source
        ∧ MEDIUM_CONFIDENCE_THRESHOLD ≤ r1.rerank_score
        ∧ MEDIUM_CONFIDENCE_THRESHOLD ≤ r2.rerank_score then
      if jaccardOverlap r1.parent_text r2.parent_text < 3/20 then
        [{ source_1 := r1.source, source_2 := r2.source,
           overlap := roundQ3 (jaccardOverlap r1.parent_text r2.parent_text),
           note := contradictionNote }]
      else []
    else []
  | _ => []

/-- Binary maximum on `ℚ`, written out so that it evaluates by kernel
reduction (it equals `max`, see `qmax_eq_max`). -/
def qmax (a b : ℚ) : ℚ := if a ≤ b then b else a

/-- Embedding of `max(scores)` over the rerank scores (only used on non-empty input, like
Python `max`). -/
def topScoreOf : List RankedResult → ℚ
  | [] => 0
  | r :: rest => rest.foldl (fun m x => qmax m x.rerank_score) r.rerank_score

/-- The distinct source filenames, `list(set(...))`. -/
def sourcesOf (results : List RankedResult) : List String :=
  (results.map (fun r => r.source)).dedup

/-- Embedding of `sum(1 for s in scores if s >= HIGH_CONFIDENCE_THRESHOLD)`. -/
def highConfCount (results : List RankedResult) : ℕ :=
  results.countP (fun r => decide (HIGH_CONFIDENCE_THRESHOLD ≤ r.rerank_score))

/-- The reasoning string of the HIGH branch. -/
def highReasoning (hc ns : ℕ) (top : ℚ) : String :=
  "Multiple high-confidence matches (" ++ toString hc ++ ") from " ++ toString ns
    ++ " independent sources. Top rerank score: " ++ fmt3 top ++ "."

/-- The reasoning string of the MEDIUM branch. -/
def mediumReasoning (hc ns : ℕ) (top : ℚ) : String :=
  let reasons :=
    (if hc < 2 then ["only " ++ toString hc ++ " high-confidence match(es)"] else [])
      ++ (if ns < 2 then ["single source only"] else [])
  "Moderate confidence. Top score: " ++ fmt3 top ++ ". Limitations: "
    ++ String.intercalate "; " reasons ++ ". Verify before relying on this."

/-- The reasoning string of the LOW branch. -/
def lowReasoning (top : ℚ) : String :=
  "Low confidence. Best match scored " ++ fmt3 top
    ++ ". The knowledge base may not cover this topic well. "
    ++ "Consider adding relevant source material."

/-- The reasoning string of the empty-result case. -/
def emptyReasoning : String := "No relevant documents found in the knowledge base."

/-- The distinct detected vendors over all results (the `vendors` set). -/
def detectedVendors (pats : VendorPatterns) (results : List RankedResult) : List String :=
  (results.filterMap (fun r => detectVendor pats r.source)).dedup

/-- Embedding of `assess_confidence`. -/
def assessConfidence (pats : VendorPatterns) (results : List RankedResult) : Assessment :=
  match results with
  | [] =>
    { level := "LOW", top_score := 0, num_results := 0, num_high_confidence := 0,
      num_sources := 0, sources := [], contradictions := [],
      reasoning := emptyReasoning, dominant_vendor := none }
  | _ :: _ =>
    let top := topScoreOf results
    let hc := highConfCount results
    let sources := sourcesOf results
    let levelReason :=
      if HIGH_CONFIDENCE_THRESHOLD ≤ top ∧ 2 ≤ hc ∧ 2 ≤ sources.length then
        ("HIGH", highReasoning hc sources.length top)
      else if MEDIUM_CONFIDENCE_THRESHOLD ≤ top then
        ("MEDIUM", mediumReasoning hc sources.length top)
      else ("LOW", lowReasoning top)
    let vendors := detectedVendors pats results
    { level := levelReason.1
      top_score := roundQ4 top
      num_results := results.length
      num_high_confidence := hc
      num_sources := sources.length
      sources := sources
      contradictions := detectContradictions results
      reasoning := levelReason.2
      dominant_vendor := if vendors.length = 1 then vendors.head? else none }

/-! ### Gap logging and `verified_query`

`log_gap` appends one JSON line to the gap tracker; the side effect is
modelled by returning the list of emitted records.  The wall-clock timestamp
is a parameter.  Citation strings (`_humanize_source`, a display-only
concern no claim touches) are not modelled. -/

/-- One gap-tracker entry. -/
structure GapRecord where
  timestamp : String
  query : String
  confidence_level : String
  top_score : ℚ
  num_results : ℕ
  sources_checked : List String
  deriving Repr, DecidableEq

/-- The record `log_gap` writes for a query and its confidence dict. -/
def mkGapRecord (now query : String) (confidence : Assessment) : GapRecord :=
  { timestamp := now, query := query, confidence_level := confidence.level,
    top_score := confidence.top_score, num_results := confidence.num_results,
    sources_checked := confidence.sources }

/-- The LOW-confidence warning. -/
def lowWarning : String :=
  "LOW CONFIDENCE: Knowledge base may not cover this topic adequately."

/-- The per-contradiction warning. -/
def contradictionWarning (c : Contradiction) : String :=
  "POTENTIAL CONTRADICTION: " ++ c.source_1 ++ " and " ++ c.source_2
    ++ " show low content overlap (" ++ fmtPct1 c.overlap ++ "). Review both sources."

/-- The single-source warning. -/
def singleSourceWarning : String :=
  "SINGLE SOURCE: All results come from one document. Cross-reference if possible."

/-- The single-vendor warning. -/
def singleVendorWarning (vendor : String) : String :=
  "SINGLE VENDOR: Retrieved product information is primarily from " ++ vendor
    ++ ". Consider cross-referencing with other manufacturers."

/-- Python truthiness of `confidence.get("dominant_vendor")`: a present,
non-empty string. -/
def dominantVendorTruthy (a : Assessment) : Bool :=
  match a.dominant_vendor with
  | some v => v ≠ ""
  | none => false

/-- The output of `verified_query`, with the gap-sink side effect made
explicit as `gaps_emitted`. -/
structure VQOutput where
  query : String
  results : List RankedResult
  confidence : Assessment
  warnings : List String
  gap_logged : Bool
  gaps_emitted : List GapRecord
  deriving Repr, DecidableEq

/-- Embedding of `verified_query`, parametrized by the results the `search`
call produced and the current timestamp. -/
def verifiedQuery (pats : VendorPatterns) (now query : String)
    (results : List RankedResult) : VQOutput :=
  let confidence := assessConfidence pats results
  let warnings :=
    (if confidence.level = "LOW" then [lowWarning] else [])
      ++ confidence.contradictions.map contradictionWarning
      ++ (if confidence.num_sources = 1 ∧ 0 < confidence.num_results then
            [singleSourceWarning] else [])
      ++ (if dominantVendorTruthy confidence ∧ 1 < confidence.num_results then
            [singleVendorWarning (confidence.dominant_vendor.getD (""))] else [])
  let gaps := if confidence.level = "LOW" then [mkGapRecord now query confidence] else []
  { query := query, results := results, confidence := confidence,
    warnings := warnings, gap_logged := decide (confidence.level = "LOW"),
    gaps_emitted := gaps }

/-- Concrete results used to exercise the contradiction block: overlap of
`c5resA`/`c5resB` is `1/20`; overlap of `c5resC`/`c5resD` is `1/5`. -/
def c5resA : RankedResult :=
  { parent_id := "p1", parent_text := "c x1 x2 x3 x4 x5 x6 x7 x8 x9",
    child_text := "", source := "a.pdf", rerank_score := 1/2,
    semantic_score := 0, bm25_score := 0, combined_score := 0 }

/-- See `c5resA`. -/
def c5resB : RankedResult :=
  { parent_id := "p2", parent_text := "c y1 y2 y3 y4 y5 y6 y7 y8 y9 y10",
    child_text := "", source := "b.pdf", rerank_score := 1/2,
    semantic_score := 0, bm25_score := 0, combined_score := 0 }

/-- See `c5resA`. -/
def c5resC : RankedResult :=
  { parent_id := "p1", parent_text := "c1 c2 c3 c4 x1 x2 x3 x4 x5 x6",
    child_text := "", source := "a.pdf", rerank_score := 1/2,
    semantic_score := 0, bm25_score := 0, combined_score := 0 }

/-- See `c5resA`. -/
def c5resD : RankedResult :=
  { parent_id := "p2", parent_text := "c1 c2 c3 c4 y1 y2 y3 y4 y5 y6 y7 y8 y9 y10",
    child_text := "", source := "b.pdf", rerank_score := 1/2,
    semantic_score := 0, bm25_score := 0, combined_score := 0 }

/-- A one-pattern vendor registry used to exercise vendor dominance. -/
def c8pats : VendorPatterns := [(fun s => s == "acme_cat.pdf", "Acme")]

/-- A single result whose source matches the `c8pats` registry. -/
def c8res : RankedResult :=
  { parent_id := "p1", parent_text := "t", child_text := "", source := "acme_cat.pdf",
    rerank_score := 1/2, semantic_score := 0, bm25_score := 0, combined_score := 0 }

/-- A registry matching two different Acme catalog files. -/
def c8pats2 : VendorPatterns :=
  [(fun s => s == "acme_a.pdf" || s == "acme_b.pdf", "Acme")]

/-- First of two Acme-sourced results. -/
def c8resA : RankedResult :=
  { parent_id := "p1", parent_text := "t1", child_text := "", source := "acme_a.pdf",
    rerank_score := 1/2, semantic_score := 0, bm25_score := 0, combined_score := 0 }

/-- Second of two Acme-sourced results. -/
def c8resB : RankedResult :=
  { parent_id := "p2", parent_text := "t2", child_text := "", source := "acme_b.pdf",
    rerank_score := 1/2, semantic_score := 0, bm25_score := 0, combined_score := 0 }

/-- Two fused candidates sharing parent `"P"`; `c3f2` has the higher
combined score. -/
def c3f1 : Fused :=
  { child_id := "c1", child_text := "t1", md_parent_id := some ("P"),
    md_source := some ("a.pdf"), semantic_score := 0, bm25_score := 0,
    combined_score := 1, origin := "semantic" }

/-- See `c3f1`. -/
def c3f2 : Fused :=
  { child_id := "c2", child_text := "t2", md_parent_id := some ("P"),
    md_source := some ("a.pdf"), semantic_score := 0, bm25_score := 0,
    combined_score := 2, origin := "bm25" }

/-- A parent store resolving only `"P"`. -/
def c3store : String → Option String := fun pid =>
  if pid = "P" then some ("PT") else none

/-- The single result parent resolution is expected to produce from
`[c3f1, c3f2]`. -/
def c3head : Resolved :=
  { toFused := c3f2, parent_id := "P", parent_text := "PT" }

/-- A hit used to instantiate the RRF closed form. -/
def c2hit : SearchHit :=
  { child_id := "c1", child_text := "t", md_parent_id := none, md_source := none,
    semantic_score := 1/2, bm25_score := 3, }

/-- A semantic hit whose parent resolves in `c3store`. -/
def c9hit : SearchHit :=
  { child_id := "c9", child_text := "tx", md_parent_id := some ("P"),
    md_source := some ("s9.pdf"), semantic_score := 1/2, bm25_score := 0 }

/-- The cleaned result the no-reranker pipeline produces from `[c9hit]`. -/
def c9elem : RankedResult :=
  cleanResult
    { toFused := mergeEntry [c9hit] [] (3/5) (2/5) "c9", parent_id := "P",
      parent_text := "PT" }
    (mergeEntry [c9hit] [] (3/5) (2/5) "c9").combined_score

/-- A hit appearing first in both channels (rounding counterexample). -/
def c10hit : SearchHit :=
  { child_id := "h1", child_text := "t", md_parent_id := none, md_source := none,
    semantic_score := 1/2, bm25_score := 2 }

/-- A parent store that resolves nothing. -/
def c10store : String → Option String := fun _ => none

/-- Semantic hits for the negative-weight counterexample. -/
def c10s1 : SearchHit :=
  { child_id := "s1", child_text := "t1", md_parent_id := none, md_source := none,
    semantic_score := 9/10, bm25_score := 0 }

/-- See `c10s1`. -/
def c10s2 : SearchHit :=
  { child_id := "s2", child_text := "t2", md_parent_id := none, md_source := none,
    semantic_score := 8/10, bm25_score := 0 }

/-- The lone keyword hit for the negative-weight counterexample. -/
def c10x : SearchHit :=
  { child_id := "x", child_text := "t3", md_parent_id := none, md_source := none,
    semantic_score := 0, bm25_score := 5 }

/-! ## Helper lemmas -/

theorem perm_insertDesc (key : α → ℚ) (a : α) (l : List α) :
    List.Perm (insertDesc key a l) (a :: l) := by
  induction l with
  | nil => rfl
  | cons b bs ih =>
    by_cases h : key b ≤ key a
    · rw [insertDesc, if_pos h]
    · rw [insertDesc, if_neg h]
      exact (List.Perm.cons b ih).trans (List.Perm.swap a b bs)

theorem perm_sortByKeyDesc (key : α → ℚ) (l : List α) :
    List.Perm (sortByKeyDesc key l) l := by
  induction l with
  | nil => rfl
  | cons a rest ih =>
    exact (perm_insertDesc key a (sortByKeyDesc key rest)).trans (ih.cons a)

theorem mem_insertDesc {key : α → ℚ} {a c : α} {l : List α} :
    c ∈ insertDesc key a l ↔ c = a ∨ c ∈ l :=
  ((perm_insertDesc key a l).mem_iff).trans List.mem_cons

theorem sorted_insertDesc {key : α → ℚ} {a : α} {l : List α}
    (h : l.Pairwise (fun x y => key y ≤ key x)) :
    (insertDesc key a l).Pairwise (fun x y => key y ≤ key x) := by
  induction l with
  | nil => simp [insertDesc]
  | cons b bs ih =>
    rcases List.pairwise_cons.mp h with ⟨hb, hbs⟩
    by_cases hc : key b ≤ key a
    · rw [insertDesc, if_pos hc]
      refine List.pairwise_cons.mpr ⟨?_, h⟩
      intro c hcmem
      rcases List.mem_cons.mp hcmem with rfl | hcbs
      · exact hc
      · exact le_trans (hb c hcbs) hc
    · rw [insertDesc, if_neg hc]
      refine List.pairwise_cons.mpr ⟨?_, ih hbs⟩
      intro c hcmem
      rcases mem_insertDesc.mp hcmem with rfl | hcbs
      · exact le_of_lt (lt_of_not_le hc)
      · exact hb c hcbs

theorem sorted_sortByKeyDesc (key : α → ℚ) (l : List α) :
    (sortByKeyDesc key l).Pairwise (fun x y => key y ≤ key x) := by
  induction l with
  | nil => exact List.Pairwise.nil
  | cons a rest ih => exact sorted_insertDesc ih

theorem alistLookup_cons {β : Type} (k : String) (v : β) (rest : List (String × β))
    (c : String) :
    alistLookup ((k, v) :: rest) c = if k = c then some v else alistLookup rest c := rfl

theorem alistLookup_append_of_none {β : Type} {l₁ : List (String × β)} {c : String}
    (l₂ : List (String × β)) (h : alistLookup l₁ c = none) :
    alistLookup (l₁ ++ l₂) c = alistLookup l₂ c := by
  induction l₁ with
  | nil => rfl
  | cons p rest ih =>
    obtain ⟨k, v⟩ := p
    rw [List.cons_append, alistLookup_cons]
    rw [alistLookup_cons] at h
    by_cases hk : k = c
    · rw [if_pos hk] at h
      exact absurd h (by simp)
    · rw [if_neg hk] at h ⊢
      exact ih h

theorem alistLookup_append_of_some {β : Type} {l₁ : List (String × β)} {c : String} {v : β}
    (l₂ : List (String × β)) (h : alistLookup l₁ c = some v) :
    alistLookup (l₁ ++ l₂) c = some v := by
  induction l₁ with
  | nil => simp [alistLookup] at h
  | cons p rest ih =>
    obtain ⟨k, w⟩ := p
    rw [List.cons_append, alistLookup_cons]
    rw [alistLookup_cons] at h
    by_cases hk : k = c
    · rw [if_pos hk] at h ⊢
      exact h
    · rw [if_neg hk] at h ⊢
      exact ih h

theorem alistLookup_eq_none_of_not_mem {β : Type} {l : List (String × β)} {c : String}
    (h : c ∉ l.map Prod.fst) : alistLookup l c = none := by
  induction l with
  | nil => rfl
  | cons p rest ih =>
    obtain ⟨k, v⟩ := p
    simp only [List.map_cons, List.mem_cons] at h
    push_neg at h
    rw [alistLookup_cons, if_neg (fun he => h.1 he.symm)]
    exact ih h.2

theorem alistLookup_mem {β : Type} {l : List (String × β)} {c : String} {v : β}
    (h : alistLookup l c = some v) : (c, v) ∈ l := by
  induction l with
  | nil => simp [alistLookup] at h
  | cons p rest ih =>
    obtain ⟨k, w⟩ := p
    rw [alistLookup_cons] at h
    by_cases hk : k = c
    · rw [if_pos hk] at h
      cases hk
      cases h
      exact List.mem_cons_self _ _
    · rw [if_neg hk] at h
      exact List.mem_cons_of_mem _ (ih h)

theorem posOf_eq_length_of_not_mem {l : List String} {c : String} (h : c ∉ l) :
    posOf l c = l.length := by
  induction l with
  | nil => rfl
  | cons a rest ih =>
    simp only [List.mem_cons] at h
    push_neg at h
    rw [posOf, if_neg (fun he => h.1 he.symm), ih h.2]
    rfl

theorem roundHalfEven_le (x : ℚ) : (roundHalfEven x : ℚ) ≤ x + 1/2 := by
  unfold roundHalfEven
  have hfl : (⌊x⌋ : ℚ) ≤ x := Int.floor_le x
  split
  · linarith
  · split
    · rename_i h1 h2
      push_cast
      linarith
    · split
      · linarith
      · rename_i h1 h2 h3
        have : x - (⌊x⌋ : ℚ) = 1/2 := le_antisymm (not_lt.mp h2) (not_lt.mp h1)
        push_cast
        linarith

theorem le_roundHalfEven (x : ℚ) : x - 1/2 ≤ (roundHalfEven x : ℚ) := by
  unfold roundHalfEven
  have hfl : x < (⌊x⌋ : ℚ) + 1 := Int.lt_floor_add_one x
  split
  · rename_i h1
    linarith
  · split
    · push_cast
      linarith
    · split
      · rename_i h1 h2 h3
        have : x - (⌊x⌋ : ℚ) = 1/2 := le_antisymm (not_lt.mp h2) (not_lt.mp h1)
        linarith
      · push_cast
        linarith

theorem floor_le_roundHalfEven (x : ℚ) : ⌊x⌋ ≤ roundHalfEven x := by
  unfold roundHalfEven
  split
  · omega
  · split
    · omega
    · split <;> omega

theorem roundHalfEven_le_floor_add_one (x : ℚ) : roundHalfEven x ≤ ⌊x⌋ + 1 := by
  unfold roundHalfEven
  split
  · omega
  · split
    · omega
    · split <;> omega

theorem roundHalfEven_mono {x y : ℚ} (h : x ≤ y) : roundHalfEven x ≤ roundHalfEven y := by
  rcases lt_or_eq_of_le (Int.floor_le_floor h) with hf | hf
  · calc roundHalfEven x ≤ ⌊x⌋ + 1 := roundHalfEven_le_floor_add_one x
      _ ≤ ⌊y⌋ := by omega
      _ ≤ roundHalfEven y := floor_le_roundHalfEven y
  · have hxy : x - (⌊x⌋ : ℚ) ≤ y - (⌊y⌋ : ℚ) := by
      rw [← hf]
      linarith
    by_cases hx1 : x - (⌊x⌋ : ℚ) < 1/2
    · have hrx : roundHalfEven x = ⌊x⌋ := by
        unfold roundHalfEven
        rw [if_pos hx1]
      rw [hrx, hf]
      exact floor_le_roundHalfEven y
    · by_cases hx2 : 1/2 < x - (⌊x⌋ : ℚ)
      · have hy2 : 1/2 < y - (⌊y⌋ : ℚ) := lt_of_lt_of_le hx2 hxy
        have hy1 : ¬ (y - (⌊y⌋ : ℚ) < 1/2) := by linarith
        have hrx : roundHalfEven x = ⌊x⌋ + 1 := by
          unfold roundHalfEven
          rw [if_neg hx1, if_pos hx2]
        have hry : roundHalfEven y = ⌊y⌋ + 1 := by
          unfold roundHalfEven
          rw [if_neg hy1, if_pos hy2]
        rw [hrx, hry, hf]
      · have hxeq : x - (⌊x⌋ : ℚ) = 1/2 := le_antisymm (not_lt.mp hx2) (not_lt.mp hx1)
        by_cases heven : ⌊x⌋ % 2 = 0
        · have hrx : roundHalfEven x = ⌊x⌋ := by
            unfold roundHalfEven
            rw [if_neg hx1, if_neg hx2, if_pos heven]
          rw [hrx, hf]
          exact floor_le_roundHalfEven y
        · have hrx : roundHalfEven x = ⌊x⌋ + 1 := by
            unfold roundHalfEven
            rw [if_neg hx1, if_neg hx2, if_neg heven]
          have hy0 : 1/2 ≤ y - (⌊y⌋ : ℚ) := by
            calc (1/2 : ℚ) = x - (⌊x⌋ : ℚ) := hxeq.symm
              _ ≤ y - (⌊y⌋ : ℚ) := hxy
          by_cases hy2 : 1/2 < y - (⌊y⌋ : ℚ)
          · have hry : roundHalfEven y = ⌊y⌋ + 1 := by
              unfold roundHalfEven
              rw [if_neg (by linarith), if_pos hy2]
            rw [hrx, hry, hf]
          · have hyodd : ¬ (⌊y⌋ % 2 = 0) := by
              rw [← hf]
              exact heven
            have hry : roundHalfEven y = ⌊y⌋ + 1 := by
              unfold roundHalfEven
              rw [if_neg (by linarith), if_neg hy2, if_neg hyodd]
            rw [hrx, hry, hf]

theorem roundQ4_le (x : ℚ) : roundQ4 x ≤ x + 1/20000 := by
  unfold roundQ4
  have h := roundHalfEven_le (x * 10000)
  rw [div_le_iff₀ (by norm_num : (0:ℚ) < 10000)]
  linarith

theorem roundQ4_mono {x y : ℚ} (h : x ≤ y) : roundQ4 x ≤ roundQ4 y := by
  unfold roundQ4
  have := roundHalfEven_mono (mul_le_mul_of_nonneg_right h (by norm_num : (0:ℚ) ≤ 10000))
  have hc : ((roundHalfEven (x * 10000) : ℚ)) ≤ ((roundHalfEven (y * 10000) : ℚ)) := by
    exact_mod_cast this
  linarith


/-! ### Lemmas about the top score (`max(scores)`) -/

theorem qmax_eq_max (a b : ℚ) : qmax a b = max a b := (max_def a b).symm

theorem le_foldl_max (xs : List RankedResult) (init : ℚ) :
    init ≤ xs.foldl (fun m x => qmax m x.rerank_score) init := by
  induction xs generalizing init with
  | nil => exact le_refl init
  | cons x rest ih =>
    refine le_trans ?_ (ih (qmax init x.rerank_score))
    rw [qmax_eq_max]
    exact le_max_left init x.rerank_score

theorem mem_le_foldl_max {xs : List RankedResult} {x : RankedResult} (hx : x ∈ xs)
    (init : ℚ) : x.rerank_score ≤ xs.foldl (fun m x => qmax m x.rerank_score) init := by
  induction xs generalizing init with
  | nil => cases hx
  | cons y rest ih =>
    rcases List.mem_cons.mp hx with rfl | hmem
    · refine le_trans ?_ (le_foldl_max rest _)
      show x.rerank_score ≤ qmax init x.rerank_score
      rw [qmax_eq_max]
      exact le_max_right init x.rerank_score
    · exact ih hmem _

theorem le_topScoreOf {results : List RankedResult} {r : RankedResult} (h : r ∈ results) :
    r.rerank_score ≤ topScoreOf results := by
  match results with
  | [] => cases h
  | x :: rest =>
    rcases List.mem_cons.mp h with rfl | hmem
    · exact le_foldl_max rest _
    · exact mem_le_foldl_max hmem _

theorem foldl_max_mem (xs : List RankedResult) (init : ℚ) :
    xs.foldl (fun m x => qmax m x.rerank_score) init = init
      ∨ ∃ x ∈ xs, xs.foldl (fun m x => qmax m x.rerank_score) init = x.rerank_score := by
  induction xs generalizing init with
  | nil => exact Or.inl rfl
  | cons y rest ih =>
    rcases ih (qmax init y.rerank_score) with h | ⟨x, hx, hfx⟩
    · rcases max_choice init y.rerank_score with hm | hm
      · exact Or.inl (by rw [List.foldl_cons, h, qmax_eq_max, hm])
      · exact Or.inr ⟨y, List.mem_cons_self _ _, by rw [List.foldl_cons, h, qmax_eq_max, hm]⟩
    · exact Or.inr ⟨x, List.mem_cons_of_mem _ hx, by rw [List.foldl_cons, hfx]⟩

theorem topScoreOf_mem {results : List RankedResult} (h : results ≠ []) :
    ∃ r ∈ results, topScoreOf results = r.rerank_score := by
  match results with
  | [] => exact absurd rfl h
  | x :: rest =>
    rcases foldl_max_mem rest x.rerank_score with he | ⟨r, hr, hfr⟩
    · exact ⟨x, List.mem_cons_self _ _, he⟩
    · exact ⟨r, List.mem_cons_of_mem _ hr, hfr⟩

theorem topScoreOf_lt {results : List RankedResult} {c : ℚ}
    (h : ∀ r ∈ results, r.rerank_score < c) (hne : results ≠ []) :
    topScoreOf results < c := by
  rcases topScoreOf_mem hne with ⟨r, hr, heq⟩
  rw [heq]
  exact h r hr

/-! ### Lemmas about `assessConfidence` on non-empty input -/

/-- The HIGH branch condition of `assess_confidence`. -/
def highCond (results : List RankedResult) : Prop :=
  HIGH_CONFIDENCE_THRESHOLD ≤ topScoreOf results
    ∧ 2 ≤ highConfCount results
    ∧ 2 ≤ (sourcesOf results).length

instance (results : List RankedResult) : Decidable (highCond results) := by
  unfold highCond
  infer_instance

theorem assessConfidence_cons (pats : VendorPatterns) (r : RankedResult)
    (rest : List RankedResult) :
    assessConfidence pats (r :: rest) =
      { level :=
          if highCond (r :: rest) then ("HIGH")
          else if MEDIUM_CONFIDENCE_THRESHOLD ≤ topScoreOf (r :: rest) then ("MEDIUM")
          else ("LOW")
        top_score := roundQ4 (topScoreOf (r :: rest))
        num_results := (r :: rest).length
        num_high_confidence := highConfCount (r :: rest)
        num_sources := (sourcesOf (r :: rest)).length
        sources := sourcesOf (r :: rest)
        contradictions := detectContradictions (r :: rest)
        reasoning :=
          if highCond (r :: rest) then
            highReasoning (highConfCount (r :: rest)) (sourcesOf (r :: rest)).length
              (topScoreOf (r :: rest))
          else if MEDIUM_CONFIDENCE_THRESHOLD ≤ topScoreOf (r :: rest) then
            mediumReasoning (highConfCount (r :: rest)) (sourcesOf (r :: rest)).length
              (topScoreOf (r :: rest))
          else lowReasoning (topScoreOf (r :: rest))
        dominant_vendor :=
          if (detectedVendors pats (r :: rest)).length = 1 then
            (detectedVendors pats (r :: rest)).head?
          else none } := by
  simp only [assessConfidence, highCond]
  split_ifs <;> rfl

/-! ### Lemmas about contradiction detection -/

theorem two_le_dedup_length {l : List String} {a b : String} (ha : a ∈ l) (hb : b ∈ l)
    (hne : a ≠ b) : 2 ≤ l.dedup.length := by
  have ha2 : a ∈ l.dedup := List.mem_dedup.mpr ha
  have hb2 : b ∈ l.dedup := List.mem_dedup.mpr hb
  match h : l.dedup with
  | [] =>
    rw [h] at ha2
    cases ha2
  | [x] =>
    rw [h] at ha2 hb2
    simp only [List.mem_singleton] at ha2 hb2
    exact absurd (ha2.trans hb2.symm) hne
  | x :: y :: rest => simp

/-- The branch structure of the contradiction block: for at least two
results, everything is decided by the top two alone. -/
theorem detectContradictions_cons (r1 r2 : RankedResult) (rest : List RankedResult) :
    detectContradictions (r1 :: r2 :: rest) =
      (if r1.source ≠ r2.source
          ∧ MEDIUM_CONFIDENCE_THRESHOLD ≤ r1.rerank_score
          ∧ MEDIUM_CONFIDENCE_THRESHOLD ≤ r2.rerank_score
          ∧ jaccardOverlap r1.parent_text r2.parent_text < 3/20 then
        [{ source_1 := r1.source, source_2 := r2.source,
           overlap := roundQ3 (jaccardOverlap r1.parent_text r2.parent_text),
           note := contradictionNote }]
      else []) := by
  have hd : r1.source ≠ r2.source →
      2 ≤ (((r1 :: r2 :: rest).map (fun r => r.source)).dedup).length := fun hne =>
    two_le_dedup_length (List.mem_map_of_mem _ (List.mem_cons_self _ _))
      (List.mem_map_of_mem _ (List.mem_cons_of_mem _ (List.mem_cons_self _ _))) hne
  simp only [detectContradictions]
  split_ifs <;> first
    | rfl
    | tauto

/-! ### Lemmas about vendor detection and the single-vendor warning -/

theorem detectVendor_eq_find (pats : VendorPatterns) (s : String) :
    detectVendor pats s = ((pats.find? (fun p => p.1 s)).map (fun p => p.2)) := by
  induction pats with
  | nil => rfl
  | cons p rest ih =>
    obtain ⟨f, name⟩ := p
    by_cases h : f s
    · rw [detectVendor, if_pos h]
      simp [List.find?_cons, h]
    · rw [detectVendor, if_neg h, ih]
      simp [List.find?_cons, h]

theorem detectVendor_mem_labels {pats : VendorPatterns} {s v : String}
    (h : detectVendor pats s = some v) : ∃ p ∈ pats, p.2 = v := by
  induction pats with
  | nil => cases h
  | cons p rest ih =>
    obtain ⟨f, name⟩ := p
    by_cases hf : f s
    · rw [detectVendor, if_pos hf] at h
      cases h
      exact ⟨(f, v), List.mem_cons_self _ _, rfl⟩
    · rw [detectVendor, if_neg hf] at h
      obtain ⟨q, hq, hqv⟩ := ih h
      exact ⟨q, List.mem_cons_of_mem _ hq, hqv⟩

theorem dedup_eq_singleton_iff {l : List String} {v : String} :
    l.dedup = [v] ↔ (v ∈ l ∧ ∀ x ∈ l, x = v) := by
  constructor
  · intro h
    refine ⟨List.mem_dedup.mp (h ▸ List.mem_singleton_self v), fun x hx => ?_⟩
    have hxd := List.mem_dedup.mpr hx
    rw [h] at hxd
    exact List.mem_singleton.mp hxd
  · rintro ⟨hv, hall⟩
    have hvd : v ∈ l.dedup := List.mem_dedup.mpr hv
    have hnodup := List.nodup_dedup l
    match hd : l.dedup with
    | [] =>
      rw [hd] at hvd
      cases hvd
    | [x] =>
      rw [hd] at hvd
      rw [(List.mem_singleton.mp hvd)]
    | x :: y :: rest =>
      have hx : x ∈ l := List.mem_dedup.mp (hd ▸ List.mem_cons_self _ _)
      have hy : y ∈ l :=
        List.mem_dedup.mp (hd ▸ List.mem_cons_of_mem _ (List.mem_cons_self _ _))
      rw [hd] at hnodup
      have hxy : x ≠ y := (List.pairwise_cons.mp hnodup).1 y (List.mem_cons_self _ _)
      exact absurd ((hall x hx).trans (hall y hy).symm) hxy

theorem num_results_eq_length (pats : VendorPatterns) (results : List RankedResult) :
    (assessConfidence pats results).num_results = results.length := by
  match results with
  | [] => rfl
  | r :: rest => rw [assessConfidence_cons]

theorem dominant_vendor_some_iff (pats : VendorPatterns) (results : List RankedResult)
    (v : String) :
    (assessConfidence pats results).dominant_vendor = some v ↔
      ((∃ r ∈ results, detectVendor pats r.source = some v)
        ∧ ∀ r ∈ results, ∀ w, detectVendor pats r.source = some w → w = v) := by
  match results with
  | [] =>
    simp [assessConfidence]
  | r :: rest =>
    rw [assessConfidence_cons]
    show (if (detectedVendors pats (r :: rest)).length = 1
        then (detectedVendors pats (r :: rest)).head? else none) = some v ↔ _
    have hiff : detectedVendors pats (r :: rest) = [v] ↔
        ((∃ x ∈ r :: rest, detectVendor pats x.source = some v)
          ∧ ∀ x ∈ r :: rest, ∀ w, detectVendor pats x.source = some w → w = v) := by
      unfold detectedVendors
      rw [dedup_eq_singleton_iff]
      constructor
      · rintro ⟨hv, hall⟩
        obtain ⟨a, ha, hfa⟩ := List.mem_filterMap.mp hv
        exact ⟨⟨a, ha, hfa⟩, fun x hx w hw =>
          hall w (List.mem_filterMap.mpr ⟨x, hx, hw⟩)⟩
      · rintro ⟨⟨a, ha, hfa⟩, hall⟩
        refine ⟨List.mem_filterMap.mpr ⟨a, ha, hfa⟩, fun x hx => ?_⟩
        obtain ⟨b, hb, hfb⟩ := List.mem_filterMap.mp hx
        exact hall b hb x hfb
    rw [← hiff]
    constructor
    · intro h
      by_cases hlen : (detectedVendors pats (r :: rest)).length = 1
      · rw [if_pos hlen] at h
        match hvd : detectedVendors pats (r :: rest) with
        | [x] =>
          rw [hvd] at h
          cases h
          rfl
        | [] => rw [hvd] at hlen; cases hlen
        | x :: y :: t => rw [hvd] at hlen; simp at hlen
      · rw [if_neg hlen] at h
        cases h
    · intro h
      rw [h]
      rfl

/-- The character at index 7 survives appending on the right. -/
theorem data_getElem7_append (s t : String) (c : Char) (h : (s.data)[7]? = some c) :
    ((s ++ t).data)[7]? = some c := by
  rw [String.data_append]
  obtain ⟨hlt, _⟩ := List.getElem?_eq_some.mp h
  rw [List.getElem?_append_left hlt]
  exact h

theorem singleVendorWarning_getElem7 (v : String) :
    ((singleVendorWarning v).data)[7]? = some 'V' := by
  unfold singleVendorWarning
  exact data_getElem7_append _ _ _ (data_getElem7_append _ _ _ (by decide))

theorem contradictionWarning_getElem7 (c : Contradiction) :
    ((contradictionWarning c).data)[7]? = some 'A' := by
  unfold contradictionWarning
  exact data_getElem7_append _ _ _ (data_getElem7_append _ _ _ (data_getElem7_append _ _ _
    (data_getElem7_append _ _ _ (data_getElem7_append _ _ _ (data_getElem7_append _ _ _
      (by decide))))))

theorem singleVendorWarning_ne_lowWarning (v : String) :
    singleVendorWarning v ≠ lowWarning := by
  intro h
  have h7 := singleVendorWarning_getElem7 v
  rw [h] at h7
  have : (lowWarning.data)[7]? = some 'F' := by decide
  rw [this] at h7
  cases h7

theorem singleVendorWarning_ne_contradictionWarning (v : String) (c : Contradiction) :
    singleVendorWarning v ≠ contradictionWarning c := by
  intro h
  have h7 := singleVendorWarning_getElem7 v
  rw [h, contradictionWarning_getElem7 c] at h7
  cases h7

theorem singleVendorWarning_ne_singleSourceWarning (v : String) :
    singleVendorWarning v ≠ singleSourceWarning := by
  intro h
  have h7 := singleVendorWarning_getElem7 v
  rw [h] at h7
  have : (singleSourceWarning.data)[7]? = some 'S' := by decide
  rw [this] at h7
  cases h7

/-! ## Claim theorems -/

/-- Claim C1. For every non-empty final result list, `assess_confidence` returns
level HIGH iff `top_score` (the maximum `rerank_score`) is `≥ 0.75` and at
least 2 results have `rerank_score ≥ 0.75` and the results span `≥ 2`
distinct `source` values; returns MEDIUM iff HIGH does not hold and
`top_score ≥ 0.40`; returns LOW otherwise; and for an empty result list it
returns LOW with `top_score 0.0` and `num_results 0`.  (`topScoreOf` is the
maximum of the rerank scores: the last two conjuncts of the non-empty part.) -/
theorem claim_C1_confidence_levels (pats : VendorPatterns) (results : List RankedResult) :
    (results ≠ [] →
      (((assessConfidence pats results).level = "HIGH") ↔
        (HIGH_CONFIDENCE_THRESHOLD ≤ topScoreOf results
          ∧ 2 ≤ highConfCount results ∧ 2 ≤ (sourcesOf results).length))
      ∧ (((assessConfidence pats results).level = "MEDIUM") ↔
          (¬ (HIGH_CONFIDENCE_THRESHOLD ≤ topScoreOf results
              ∧ 2 ≤ highConfCount results ∧ 2 ≤ (sourcesOf results).length)
            ∧ MEDIUM_CONFIDENCE_THRESHOLD ≤ topScoreOf results))
      ∧ (((assessConfidence pats results).level = "LOW") ↔
          (¬ (HIGH_CONFIDENCE_THRESHOLD ≤ topScoreOf results
              ∧ 2 ≤ highConfCount results ∧ 2 ≤ (sourcesOf results).length)
            ∧ ¬ MEDIUM_CONFIDENCE_THRESHOLD ≤ topScoreOf results))
      ∧ (∀ r ∈ results, r.rerank_score ≤ topScoreOf results)
      ∧ (∃ r ∈ results, topScoreOf results = r.rerank_score))
    ∧ (assessConfidence pats []).level = "LOW"
    ∧ (assessConfidence pats []).top_score = 0
    ∧ (assessConfidence pats []).num_results = 0 := by
  refine ⟨?_, rfl, rfl, rfl⟩
  intro hne
  obtain ⟨r, rest, rfl⟩ := List.exists_cons_of_ne_nil hne
  rw [assessConfidence_cons]
  refine ⟨?_, ?_, ?_, fun x hx => le_topScoreOf hx, topScoreOf_mem hne⟩
  all_goals
    simp only [highCond]
    split_ifs with h1 h2 <;> simp_all

/-- Witness for C1 at concrete inputs: two results `≥ 0.75` from two sources
classify HIGH, and the empty list classifies LOW. -/
theorem claim_C1_confidence_levels_witness :
    (let results :=
      [{ parent_id := "p1", parent_text := "t1", child_text := "c1", source := "a.pdf",
         rerank_score := 4/5, semantic_score := 0, bm25_score := 0, combined_score := 0 },
       { parent_id := "p2", parent_text := "t2", child_text := "c2", source := "b.pdf",
         rerank_score := 77/100, semantic_score := 0, bm25_score := 0,
         combined_score := 0 }]
     (assessConfidence [] results).level = "HIGH")
    ∧ (assessConfidence [] []).level = "LOW" := by
  constructor
  · exact ((claim_C1_confidence_levels [] _).1 (by decide)).1.mpr
      (by with_unfolding_all decide)
  · exact (claim_C1_confidence_levels [] []).2.1

/-- Claim C5. Contradiction detection compares only the top two results: a
contradiction record `{source_1, source_2, overlap, note}` is emitted iff
there are at least two results, the top two come from different sources,
both have score `≥ 0.40`, and the Jaccard word-overlap of their texts is
`< 0.15`; no other pair of results is ever compared (the contradiction list
is a function of the first two results alone). -/
theorem claim_C5_contradiction_scope (pats : VendorPatterns) (results : List RankedResult) :
    (detectContradictions results = detectContradictions (results.take 2))
    ∧ (∀ r1 r2 rest, results = r1 :: r2 :: rest →
        ((detectContradictions results ≠ []) ↔
          (r1.source ≠ r2.source
            ∧ MEDIUM_CONFIDENCE_THRESHOLD ≤ r1.rerank_score
            ∧ MEDIUM_CONFIDENCE_THRESHOLD ≤ r2.rerank_score
            ∧ jaccardOverlap r1.parent_text r2.parent_text < 3/20))
        ∧ (detectContradictions results ≠ [] →
            detectContradictions results =
              [{ source_1 := r1.source, source_2 := r2.source,
                 overlap := roundQ3 (jaccardOverlap r1.parent_text r2.parent_text),
                 note := contradictionNote }]))
    ∧ (results.length ≤ 1 → detectContradictions results = [])
    ∧ ((assessConfidence pats results).contradictions = detectContradictions results) := by
  refine ⟨?_, ?_, ?_, ?_⟩
  · match results with
    | [] => rfl
    | [r] => rfl
    | r1 :: r2 :: rest =>
      show detectContradictions (r1 :: r2 :: rest) = detectContradictions [r1, r2]
      rw [detectContradictions_cons, detectContradictions_cons]
  · intro r1 r2 rest heq
    subst heq
    rw [detectContradictions_cons]
    constructor
    · split_ifs with h
      · simp only [ne_eq, List.cons_ne_nil, not_false_iff, true_iff]
        exact h
      · simp only [ne_eq, not_true, false_iff]
        simpa using h
    · split_ifs with h
      · intro _
        rfl
      · intro hne
        exact absurd rfl hne
  · intro hlen
    match results with
    | [] => rfl
    | [r] => rfl
    | r1 :: r2 :: rest => simp at hlen
  · match results with
    | [] => rfl
    | r :: rest => rw [assessConfidence_cons]

set_option maxRecDepth 2000 in
/-- Witness for C5: two results from different sources, both scoring 0.50,
with word overlap exactly 0.05 produce one record with that overlap; raising
the overlap to 0.20 produces none. -/
theorem claim_C5_contradiction_scope_witness :
    detectContradictions [c5resA, c5resB] =
      [{ source_1 := "a.pdf", source_2 := "b.pdf", overlap := 1/20,
         note := contradictionNote }]
    ∧ detectContradictions [c5resC, c5resD] = [] := by
  constructor
  · have h := ((claim_C5_contradiction_scope [] [c5resA, c5resB]).2.1 c5resA c5resB [] rfl).2
    rw [h (((claim_C5_contradiction_scope [] [c5resA, c5resB]).2.1 c5resA c5resB []
      rfl).1.mpr (by with_unfolding_all decide))]
    with_unfolding_all decide
  · by_contra hne
    have h := ((claim_C5_contradiction_scope [] [c5resC, c5resD]).2.1 c5resC c5resD []
      rfl).1.mp hne
    revert h
    with_unfolding_all decide

/-- The warnings list `verified_query` builds, spelled out. -/
theorem verifiedQuery_warnings (pats : VendorPatterns) (now q : String)
    (results : List RankedResult) :
    (verifiedQuery pats now q results).warnings =
      (if (assessConfidence pats results).level = "LOW" then [lowWarning] else [])
        ++ (assessConfidence pats results).contradictions.map contradictionWarning
        ++ (if (assessConfidence pats results).num_sources = 1
              ∧ 0 < (assessConfidence pats results).num_results then
            [singleSourceWarning] else [])
        ++ (if dominantVendorTruthy (assessConfidence pats results)
              ∧ 1 < (assessConfidence pats results).num_results then
            [singleVendorWarning
              ((assessConfidence pats results).dominant_vendor.getD (""))] else []) := rfl

/-- Claim C8, counterexample. The claim requires `dominant_vendor` to be absent
whenever `num_results ≤ 1`, but with one vendor-matching result the code sets
`dominant_vendor = "Acme"` while `num_results = 1`. -/
theorem claim_C8_counterexample :
    (assessConfidence c8pats [c8res]).dominant_vendor = some ("Acme")
    ∧ (assessConfidence c8pats [c8res]).num_results = 1 := by
  with_unfolding_all decide

/-- Claim C8, amended. Vendor detection applies the ordered vendor pattern list
first-match-wins to each result's source; `dominant_vendor` is set iff exactly
one vendor is identified across all results (with no condition on
`num_results`); the single-vendor *warning* is surfaced iff a vendor was
dominant and `num_results > 1` (assuming the registry's vendor names are
non-empty, as Python truthiness drops an empty name). -/
theorem claim_C8_vendor_dominance (pats : VendorPatterns) (now q : String)
    (results : List RankedResult) (hp : ∀ p ∈ pats, p.2 ≠ "") :
    (∀ s, detectVendor pats s = ((pats.find? (fun p => p.1 s)).map (fun p => p.2)))
    ∧ (∀ v, ((assessConfidence pats results).dominant_vendor = some v ↔
        ((∃ r ∈ results, detectVendor pats r.source = some v)
          ∧ ∀ r ∈ results, ∀ w, detectVendor pats r.source = some w → w = v)))
    ∧ ((∃ v, singleVendorWarning v ∈ (verifiedQuery pats now q results).warnings) ↔
        ((assessConfidence pats results).dominant_vendor.isSome = true
          ∧ 1 < results.length)) := by
  refine ⟨detectVendor_eq_find pats, dominant_vendor_some_iff pats results, ?_, ?_⟩
  · rintro ⟨v, hv⟩
    rw [verifiedQuery_warnings] at hv
    rcases List.mem_append.mp hv with hv1 | hvD
    · rcases List.mem_append.mp hv1 with hv2 | hvC
      · rcases List.mem_append.mp hv2 with hvA | hvB
        · by_cases hl : (assessConfidence pats results).level = "LOW"
          · rw [if_pos hl] at hvA
            exact absurd (List.mem_singleton.mp hvA) (singleVendorWarning_ne_lowWarning v)
          · rw [if_neg hl] at hvA
            cases hvA
        · obtain ⟨ctr, _, hctr⟩ := List.mem_map.mp hvB
          exact absurd hctr.symm (singleVendorWarning_ne_contradictionWarning v ctr)
      · by_cases hs : (assessConfidence pats results).num_sources = 1
            ∧ 0 < (assessConfidence pats results).num_results
        · rw [if_pos hs] at hvC
          exact absurd (List.mem_singleton.mp hvC)
            (singleVendorWarning_ne_singleSourceWarning v)
        · rw [if_neg hs] at hvC
          cases hvC
    · by_cases hcond : dominantVendorTruthy (assessConfidence pats results)
          ∧ 1 < (assessConfidence pats results).num_results
      · refine ⟨?_, ?_⟩
        · revert hcond
          unfold dominantVendorTruthy
          match (assessConfidence pats results).dominant_vendor with
          | some w => intro _; rfl
          | none => intro hc; exact absurd hc.1 (by simp)
        · rw [← num_results_eq_length pats results]
          exact hcond.2
      · rw [if_neg hcond] at hvD
        cases hvD
  · rintro ⟨hsome, hlen⟩
    obtain ⟨v, hv⟩ := Option.isSome_iff_exists.mp hsome
    have hvne : v ≠ "" := by
      obtain ⟨⟨r, hr, hdet⟩, _⟩ := (dominant_vendor_some_iff pats results v).mp hv
      obtain ⟨p, hpmem, hpv⟩ := detectVendor_mem_labels hdet
      rw [← hpv]
      exact hp p hpmem
    have htruthy : dominantVendorTruthy (assessConfidence pats results) = true := by
      unfold dominantVendorTruthy
      rw [hv]
      simp [hvne]
    refine ⟨v, ?_⟩
    rw [verifiedQuery_warnings]
    refine List.mem_append.mpr (Or.inr ?_)
    rw [if_pos ⟨htruthy, by rw [num_results_eq_length]; exact hlen⟩, hv]
    simp

/-- Witness for the amended C8: with two results from the same vendor the
single-vendor warning is emitted, and `dominant_vendor` is that vendor. -/
theorem claim_C8_vendor_dominance_witness :
    (∃ v, singleVendorWarning v ∈
      (verifiedQuery c8pats2 ("2026-01-01") ("q") [c8resA, c8resB]).warnings)
    ∧ (assessConfidence c8pats2 [c8resA, c8resB]).dominant_vendor = some ("Acme") := by
  constructor
  · exact (claim_C8_vendor_dominance c8pats2 ("2026-01-01") ("q") [c8resA, c8resB]
      (by intro p hp; rw [List.mem_singleton.mp hp]; decide)).2.2.mpr
      (by with_unfolding_all decide)
  · exact ((claim_C8_vendor_dominance c8pats2 ("2026-01-01") ("q") [c8resA, c8resB]
      (by intro p hp; rw [List.mem_singleton.mp hp]; decide)).2.1 ("Acme")).mpr
      (by with_unfolding_all decide)

/-! ### Lemmas about `bestPerParent` (the dedup-by-parent dict) -/

theorem alistLookup_isSome_iff {β : Type} {l : List (String × β)} {c : String} :
    (alistLookup l c).isSome ↔ c ∈ l.map Prod.fst := by
  induction l with
  | nil => simp [alistLookup]
  | cons p rest ih =>
    obtain ⟨k, v⟩ := p
    rw [alistLookup_cons]
    by_cases hk : k = c
    · simp [hk]
    · rw [if_neg hk]
      simp only [List.map_cons, List.mem_cons, ih]
      constructor
      · exact Or.inr
      · rintro (h | h)
        · exact absurd h.symm hk
        · exact h

theorem eq_of_mem_of_nodup_keys {β : Type} {l : List (String × β)}
    (hnd : (l.map Prod.fst).Nodup) {k : String} {x y : β}
    (hx : (k, x) ∈ l) (hy : (k, y) ∈ l) : x = y := by
  induction l with
  | nil => cases hx
  | cons p rest ih =>
    rw [List.map_cons] at hnd
    rcases List.pairwise_cons.mp hnd with ⟨hhead, htail⟩
    rcases List.mem_cons.mp hx with rfl | hx2
    · rcases List.mem_cons.mp hy with hy1 | hy2
      · exact (congrArg Prod.snd hy1.symm)
      · exact absurd rfl (hhead k (List.mem_map_of_mem Prod.fst hy2))
    · rcases List.mem_cons.mp hy with rfl | hy2
      · exact absurd rfl (hhead k (List.mem_map_of_mem Prod.fst hx2))
      · exact ih htail hx2 hy2

/-- The loop invariant of the `best_per_parent` dict: keys are distinct, the
key set is exactly the parent-id set of the processed candidates, and every
entry is a processed candidate with that parent id bearing the maximal
`combined_score` among them. -/
def BPPInv (processed : List Fused) (acc : List (String × Fused)) : Prop :=
  ((acc.map Prod.fst).Nodup)
  ∧ (∀ pid, pid ∈ acc.map Prod.fst ↔ pid ∈ processed.map parentIdOf)
  ∧ (∀ p ∈ acc, p.2 ∈ processed ∧ parentIdOf p.2 = p.1
      ∧ ∀ c ∈ processed, parentIdOf c = p.1 → c.combined_score ≤ p.2.combined_score)

theorem updateBest_none {acc : List (String × Fused)} {c : Fused}
    (h : alistLookup acc (parentIdOf c) = none) :
    updateBest acc c = acc ++ [(parentIdOf c, c)] := by
  simp only [updateBest]
  rw [h]

theorem updateBest_some_lt {acc : List (String × Fused)} {c b : Fused}
    (h : alistLookup acc (parentIdOf c) = some b)
    (hlt : b.combined_score < c.combined_score) :
    updateBest acc c =
      acc.map (fun p => if p.1 = parentIdOf c then (parentIdOf c, c) else p) := by
  simp only [updateBest]
  rw [h]
  exact if_pos hlt

theorem updateBest_some_ge {acc : List (String × Fused)} {c b : Fused}
    (h : alistLookup acc (parentIdOf c) = some b)
    (hge : ¬ b.combined_score < c.combined_score) :
    updateBest acc c = acc := by
  simp only [updateBest]
  rw [h]
  exact if_neg hge

theorem bppInv_updateBest {processed : List Fused} {acc : List (String × Fused)}
    (inv : BPPInv processed acc) (c : Fused) :
    BPPInv (processed ++ [c]) (updateBest acc c) := by
  obtain ⟨hnd, hkeys, hent⟩ := inv
  rcases hlk : alistLookup acc (parentIdOf c) with _ | b
  · -- new key: append the entry
    rw [updateBest_none hlk]
    have hnotmem : parentIdOf c ∉ acc.map Prod.fst := by
      intro hmem
      have hs := alistLookup_isSome_iff.mpr hmem
      rw [hlk] at hs
      cases hs
    have hnotproc : parentIdOf c ∉ processed.map parentIdOf := by
      intro hmem
      exact hnotmem ((hkeys (parentIdOf c)).mpr hmem)
    refine ⟨?_, ?_, ?_⟩
    · rw [List.map_append, List.nodup_append]
      refine ⟨hnd, List.nodup_singleton _, ?_⟩
      intro x hx hx2
      rw [List.map_singleton, List.mem_singleton] at hx2
      rw [hx2] at hx
      exact hnotmem hx
    · intro pid
      rw [List.map_append, List.mem_append, List.map_append, List.mem_append,
        List.map_singleton, List.map_singleton]
      rw [hkeys pid]
    · intro p hp
      rcases List.mem_append.mp hp with hpold | hpnew
      · obtain ⟨hmem, hpid, hmax⟩ := hent p hpold
        refine ⟨List.mem_append_left _ hmem, hpid, ?_⟩
        intro x hx hxpid
        rcases List.mem_append.mp hx with hxold | hxnew
        · exact hmax x hxold hxpid
        · exfalso
          rw [List.mem_singleton.mp hxnew] at hxpid
          apply hnotmem
          rw [hxpid]
          exact List.mem_map_of_mem Prod.fst hpold
      · rw [List.mem_singleton.mp hpnew]
        refine ⟨List.mem_append_right _ (List.mem_singleton_self c), rfl, ?_⟩
        intro x hx hxpid
        have hxpid2 : parentIdOf x = parentIdOf c := hxpid
        rcases List.mem_append.mp hx with hxold | hxnew
        · exfalso
          apply hnotproc
          rw [← hxpid2]
          exact List.mem_map_of_mem parentIdOf hxold
        · rw [List.mem_singleton.mp hxnew]
  · -- existing key
    have hbmem : (parentIdOf c, b) ∈ acc := alistLookup_mem hlk
    have hpidkeys : parentIdOf c ∈ acc.map Prod.fst :=
      List.mem_map_of_mem Prod.fst hbmem
    by_cases hcmp : b.combined_score < c.combined_score
    · rw [updateBest_some_lt hlk hcmp]
      have hkeyeq : (acc.map (fun p =>
          if p.1 = parentIdOf c then (parentIdOf c, c) else p)).map Prod.fst =
            acc.map Prod.fst := by
        rw [List.map_map]
        refine List.map_congr_left ?_
        intro p _
        by_cases hp : p.1 = parentIdOf c
        · simp [hp]
        · simp [hp]
      refine ⟨?_, ?_, ?_⟩
      · rw [hkeyeq]
        exact hnd
      · intro pid
        rw [hkeyeq, List.map_append, List.mem_append, List.map_singleton,
          hkeys pid]
        constructor
        · exact Or.inl
        · rintro (h | h)
          · exact h
          · rw [List.mem_singleton.mp h]
            exact (hkeys (parentIdOf c)).mp hpidkeys
      · intro p hp
        obtain ⟨q, hq, hqp⟩ := List.mem_map.mp hp
        by_cases hqpid : q.1 = parentIdOf c
        · rw [if_pos hqpid] at hqp
          have hq3 : (q.1, q.2) ∈ acc := by
            rw [Prod.mk.eta]
            exact hq
          have hyb : (q.1, b) ∈ acc := by
            rw [hqpid]
            exact hbmem
          have hqb : q.2 = b := eq_of_mem_of_nodup_keys hnd hq3 hyb
          obtain ⟨hbm, hbpid, hbmax⟩ := hent q hq
          rw [← hqp]
          refine ⟨List.mem_append_right _ (List.mem_singleton_self c), rfl, ?_⟩
          intro x hx hxpid
          rcases List.mem_append.mp hx with hxold | hxnew
          · refine le_trans (hbmax x hxold ?_) ?_
            · rw [hxpid, hqpid]
            · rw [hqb]
              exact le_of_lt hcmp
          · rw [List.mem_singleton.mp hxnew]
        · rw [if_neg hqpid] at hqp
          rw [← hqp]
          obtain ⟨hmem, hpid, hmax⟩ := hent q hq
          refine ⟨List.mem_append_left _ hmem, hpid, ?_⟩
          intro x hx hxpid
          rcases List.mem_append.mp hx with hxold | hxnew
          · exact hmax x hxold hxpid
          · rw [List.mem_singleton.mp hxnew] at hxpid
            exact absurd hxpid.symm hqpid
    · rw [updateBest_some_ge hlk hcmp]
      refine ⟨hnd, ?_, ?_⟩
      · intro pid
        rw [List.map_append, List.mem_append, List.map_singleton, hkeys pid]
        constructor
        · exact Or.inl
        · rintro (h | h)
          · exact h
          · rw [List.mem_singleton.mp h]
            exact (hkeys (parentIdOf c)).mp hpidkeys
      · intro p hp
        obtain ⟨hmem, hpid, hmax⟩ := hent p hp
        refine ⟨List.mem_append_left _ hmem, hpid, ?_⟩
        intro x hx hxpid
        rcases List.mem_append.mp hx with hxold | hxnew
        · exact hmax x hxold hxpid
        · rw [List.mem_singleton.mp hxnew] at hxpid ⊢
          have hp3 : (p.1, p.2) ∈ acc := by
            rw [Prod.mk.eta]
            exact hp
          have hyb : (p.1, b) ∈ acc := by
            rw [← hxpid]
            exact hbmem
          have hpb : p.2 = b := eq_of_mem_of_nodup_keys hnd hp3 hyb
          rw [hpb]
          exact le_of_not_lt hcmp

theorem bppInv_foldl (l : List Fused) :
    ∀ (processed : List Fused) (acc : List (String × Fused)),
      BPPInv processed acc → BPPInv (processed ++ l) (l.foldl updateBest acc) := by
  induction l with
  | nil =>
    intro processed acc h
    rw [List.append_nil]
    exact h
  | cons c rest ih =>
    intro processed acc h
    rw [List.foldl_cons]
    have := ih (processed ++ [c]) (updateBest acc c) (bppInv_updateBest h c)
    rwa [List.append_assoc, List.singleton_append] at this

theorem bppInv_bestPerParent (candidates : List Fused) :
    BPPInv candidates (bestPerParent candidates) := by
  have h := bppInv_foldl candidates [] [] ⟨List.nodup_nil, by simp, by simp⟩
  rwa [List.nil_append] at h

/-- Claim C3. For every input candidate list, parent resolution outputs at most
one entry per `parent_id` (the output parent ids are distinct), with output
cardinality `≤` the number of distinct parent ids in the input; among
candidates sharing a `parent_id` the one with the highest `combined_score`
is kept; the output is ordered by `combined_score` descending; and when a
`parent_id` cannot be resolved in the parent store, the child's own text is
used as `parent_text` (and the total function raises nothing). -/
theorem claim_C3_parent_resolution (store : String → Option String)
    (cands : List Fused) :
    ((resolveParents store cands).map (fun r => r.parent_id)).Nodup
    ∧ (resolveParents store cands).length ≤ ((cands.map parentIdOf).dedup).length
    ∧ (∀ r ∈ resolveParents store cands,
        r.toFused ∈ cands ∧ parentIdOf r.toFused = r.parent_id
          ∧ ∀ c ∈ cands, parentIdOf c = r.parent_id →
              c.combined_score ≤ r.combined_score)
    ∧ ((resolveParents store cands).Pairwise
        (fun a b => b.combined_score ≤ a.combined_score))
    ∧ (∀ r ∈ resolveParents store cands,
        store r.parent_id = none → r.parent_text = r.child_text) := by
  obtain ⟨hnd, hkeys, hent⟩ := bppInv_bestPerParent cands
  have hperm : List.Perm (resolveParents store cands)
      ((bestPerParent cands).map (fun p =>
        ({ toFused := p.2, parent_id := p.1,
           parent_text := (store p.1).getD p.2.child_text } : Resolved))) :=
    perm_sortByKeyDesc _ _
  have hkeyseq : ((bestPerParent cands).map (fun p =>
      ({ toFused := p.2, parent_id := p.1,
         parent_text := (store p.1).getD p.2.child_text } : Resolved))).map
        (fun r => r.parent_id) = (bestPerParent cands).map Prod.fst := by
    rw [List.map_map]
    rfl
  refine ⟨?_, ?_, ?_, ?_, ?_⟩
  · have hpm := hperm.map (fun r => r.parent_id)
    rw [hkeyseq] at hpm
    exact hpm.nodup_iff.mpr hnd
  · rw [hperm.length_eq, List.length_map]
    have hlen : (bestPerParent cands).length = ((bestPerParent cands).map Prod.fst).length :=
      (List.length_map _ _).symm
    rw [hlen]
    refine (List.subperm_of_subset hnd ?_).length_le
    intro k hk
    exact List.mem_dedup.mpr ((hkeys k).mp hk)
  · intro r hr
    obtain ⟨p, hp, hgp⟩ := List.mem_map.mp (hperm.mem_iff.mp hr)
    obtain ⟨hmem, hpid, hmax⟩ := hent p hp
    rw [← hgp]
    exact ⟨hmem, hpid, fun c hc hcp => hmax c hc hcp⟩
  · exact sorted_sortByKeyDesc _ _
  · intro r hr hstore
    obtain ⟨p, hp, hgp⟩ := List.mem_map.mp (hperm.mem_iff.mp hr)
    rw [← hgp]
    rw [← hgp] at hstore
    show ((store p.1).getD p.2.child_text) = p.2.child_text
    rw [show store p.1 = none from hstore]
    rfl

/-- Witness for C3: from two candidates sharing parent `"P"`, the resolved
entry keeps the higher-scoring child and every input with that parent scores
no more than it. -/
theorem claim_C3_parent_resolution_witness :
    c3head.toFused ∈ [c3f1, c3f2]
    ∧ (∀ c ∈ [c3f1, c3f2], parentIdOf c = c3head.parent_id →
        c.combined_score ≤ c3head.combined_score)
    ∧ ((resolveParents c3store [c3f1, c3f2]).map (fun r => r.parent_id)).Nodup := by
  have hmem : c3head ∈ resolveParents c3store [c3f1, c3f2] := by
    with_unfolding_all decide
  have h := (claim_C3_parent_resolution c3store [c3f1, c3f2]).2.2.1 c3head hmem
  exact ⟨h.1, h.2.2, (claim_C3_parent_resolution c3store [c3f1, c3f2]).1⟩

/-- Claim C7. `verified_query` emits exactly one `GapRecord` (containing the
query, confidence level, top score, result count, sources and a timestamp)
and returns `gap_logged = true` iff the final confidence level is LOW; when
the level is HIGH or MEDIUM no record is written and `gap_logged = false`;
at most one record is ever emitted per call (the write is a single
fire-and-forget append with no retry and no dedup). -/
theorem claim_C7_gap_logging (pats : VendorPatterns) (now q : String)
    (results : List RankedResult) :
    ((verifiedQuery pats now q results).confidence.level = "LOW" →
      (verifiedQuery pats now q results).gaps_emitted =
        [{ timestamp := now, query := q, confidence_level := "LOW",
           top_score := (assessConfidence pats results).top_score,
           num_results := (assessConfidence pats results).num_results,
           sources_checked := (assessConfidence pats results).sources }]
      ∧ (verifiedQuery pats now q results).gap_logged = true)
    ∧ ((verifiedQuery pats now q results).confidence.level ≠ "LOW" →
      (verifiedQuery pats now q results).gaps_emitted = []
      ∧ (verifiedQuery pats now q results).gap_logged = false)
    ∧ (verifiedQuery pats now q results).gaps_emitted.length ≤ 1 := by
  by_cases h : (assessConfidence pats results).level = "LOW"
  · refine ⟨fun _ => ⟨?_, ?_⟩, fun hne => absurd h hne, ?_⟩
    · show (if (assessConfidence pats results).level = "LOW" then
          [mkGapRecord now q (assessConfidence pats results)] else []) = _
      rw [if_pos h]
      unfold mkGapRecord
      rw [h]
    · show decide ((assessConfidence pats results).level = "LOW") = true
      rw [h]
      rfl
    · show (if (assessConfidence pats results).level = "LOW" then
          [mkGapRecord now q (assessConfidence pats results)] else []).length ≤ 1
      rw [if_pos h]
      exact le_refl 1
  · refine ⟨fun hl => absurd hl h, fun _ => ⟨?_, ?_⟩, ?_⟩
    · show (if (assessConfidence pats results).level = "LOW" then
          [mkGapRecord now q (assessConfidence pats results)] else []) = []
      rw [if_neg h]
    · show decide ((assessConfidence pats results).level = "LOW") = false
      exact decide_eq_false h
    · show (if (assessConfidence pats results).level = "LOW" then
          [mkGapRecord now q (assessConfidence pats results)] else []).length ≤ 1
      rw [if_neg h]
      exact Nat.zero_le 1

/-- Witness for C7: an empty result set (LOW) emits exactly one gap record
and sets `gap_logged`; one MEDIUM-scoring result emits nothing. -/
theorem claim_C7_gap_logging_witness :
    ((verifiedQuery [] ("2026-01-01") ("unanswerable question") []).gaps_emitted =
      [{ timestamp := "2026-01-01", query := "unanswerable question",
         confidence_level := "LOW", top_score := 0, num_results := 0,
         sources_checked := [] }]
      ∧ (verifiedQuery [] ("2026-01-01") ("unanswerable question") []).gap_logged = true)
    ∧ ((verifiedQuery [] ("t1") ("q") [c8res]).gaps_emitted = []
      ∧ (verifiedQuery [] ("t1") ("q") [c8res]).gap_logged = false) := by
  constructor
  · exact (claim_C7_gap_logging [] ("2026-01-01") ("unanswerable question") []).1 rfl
  · exact (claim_C7_gap_logging [] ("t1") ("q") [c8res]).2.1
      (by with_unfolding_all decide)

/-- Claim C4. Query classification is a pure, deterministic function of the
query string: identical input always yields identical weights; it returns
`(semantic_weight, bm25_weight) = (0.60, 0.40)` by default and
`(0.25, 0.75)` whenever the query matches the specification pattern
(standard codes such as ISO/NAS/SAE/ASTM, beta-ratio notation, micron units,
part/model numbers, manufacturer-style alphanumeric codes); explicit
caller-supplied weight overrides take precedence over classification. -/
theorem claim_C4_adaptive_weights :
    (∀ q, adaptiveWeights q =
      (if specQueryPatterns q then (SPEC_SEMANTIC_WEIGHT, SPEC_BM25_WEIGHT)
       else (SEMANTIC_WEIGHT, BM25_WEIGHT)))
    ∧ (SPEC_SEMANTIC_WEIGHT = 1/4 ∧ SPEC_BM25_WEIGHT = 3/4
        ∧ SEMANTIC_WEIGHT = 3/5 ∧ BM25_WEIGHT = 2/5)
    ∧ (∀ q1 q2, q1 = q2 → adaptiveWeights q1 = adaptiveWeights q2)
    ∧ (∀ sw bw q, (sw.isSome ∨ bw.isSome) →
        selectWeights sw bw q = (sw.getD SEMANTIC_WEIGHT, bw.getD BM25_WEIGHT))
    ∧ (∀ q, selectWeights none none q = adaptiveWeights q)
    ∧ specQueryPatterns ("ISO 4406 cleanliness code 16/14/11") = true
    ∧ specQueryPatterns ("NAS 1638 class") = true
    ∧ specQueryPatterns ("beta ratio of this filter") = true
    ∧ specQueryPatterns ("10 micron filter") = true
    ∧ specQueryPatterns ("DHP-1234") = true
    ∧ specQueryPatterns ("What nozzle produces the finest droplet size?") = false
    ∧ specQueryPatterns ("what causes cavitation") = false := by
  refine ⟨fun q => rfl, ⟨rfl, rfl, rfl, rfl⟩, fun q1 q2 h => by rw [h], ?_, fun q => rfl,
    by decide, by decide, by decide, by decide, by decide, by decide, by decide⟩
  intro sw bw q h
  unfold selectWeights
  rw [if_pos ?_]
  rcases h with h | h
  · rw [Bool.or_eq_true]
    exact Or.inl h
  · rw [Bool.or_eq_true]
    exact Or.inr h

/-- Witness for C4: an explicit semantic-weight override takes precedence,
and the spec-pattern query from the spec's end-to-end scenario classifies to
`(0.25, 0.75)`. -/
theorem claim_C4_adaptive_weights_witness :
    selectWeights (some (1/2)) none ("ISO 4406 cleanliness code 16/14/11") = (1/2, 2/5)
    ∧ selectWeights none none ("ISO 4406 cleanliness code 16/14/11") = (1/4, 3/4) := by
  constructor
  · rw [claim_C4_adaptive_weights.2.2.2.1 (some (1/2)) none
      "ISO 4406 cleanliness code 16/14/11" (Or.inl rfl)]
    rfl
  · rw [claim_C4_adaptive_weights.2.2.2.2.1 ("ISO 4406 cleanliness code 16/14/11"),
      claim_C4_adaptive_weights.1, claim_C4_adaptive_weights.2.2.2.2.2.1]
    rfl

/-! ### Lemmas about the RRF rank dicts and merge entries -/

theorem alistLookup_map_snd {β γ : Type} (f : β → γ) (M : List (String × β)) (c : String) :
    alistLookup (M.map (fun p => (p.1, f p.2))) c = (alistLookup M c).map f := by
  induction M with
  | nil => rfl
  | cons p rest ih =>
    obtain ⟨k, v⟩ := p
    rw [List.map_cons]
    rw [alistLookup_cons, alistLookup_cons]
    by_cases hk : k = c
    · rw [if_pos hk, if_pos hk]
      rfl
    · rw [if_neg hk, if_neg hk, ih]

theorem keys_rankAssignments (ids : List String) :
    (rankAssignments ids).map Prod.fst = ids := by
  induction ids with
  | nil => rfl
  | cons a rest ih =>
    rw [rankAssignments, List.map_cons, List.map_map]
    exact congrArg (List.cons a) ih

theorem dictRank_isSome_iff (ids : List String) (cid : String) :
    (dictRank ids cid).isSome ↔ cid ∈ ids := by
  unfold dictRank
  rw [alistLookup_isSome_iff, List.map_reverse, keys_rankAssignments,
    List.mem_reverse]

theorem dictRank_eq_of_nodup {ids : List String} (h : ids.Nodup) (cid : String) :
    dictRank ids cid = if cid ∈ ids then some (posOf ids cid + 1) else none := by
  induction ids with
  | nil => simp [dictRank, rankAssignments, alistLookup]
  | cons a rest ih =>
    rcases List.pairwise_cons.mp h with ⟨hhead, htail⟩
    have hstep : dictRank (a :: rest) cid =
        alistLookup (((rankAssignments rest).reverse.map (fun p => (p.1, p.2 + 1)))
          ++ [(a, 1)]) cid := by
      unfold dictRank
      rw [rankAssignments, List.reverse_cons, List.map_reverse]
    by_cases hmem : cid ∈ rest
    · have hane : a ≠ cid := fun he => hhead cid hmem he
      rw [hstep]
      have hlk : alistLookup ((rankAssignments rest).reverse.map
          (fun p => (p.1, p.2 + 1))) cid = some (posOf rest cid + 1 + 1) := by
        rw [alistLookup_map_snd (fun n => n + 1) ((rankAssignments rest).reverse) cid]
        show (dictRank rest cid).map (fun n => n + 1) = _
        rw [ih htail, if_pos hmem]
        rfl
      rw [alistLookup_append_of_some _ hlk, if_pos (List.mem_cons_of_mem a hmem)]
      rw [posOf, if_neg hane]
    · have hlk : alistLookup ((rankAssignments rest).reverse.map
          (fun p => (p.1, p.2 + 1))) cid = none := by
        rw [alistLookup_map_snd (fun n => n + 1) ((rankAssignments rest).reverse) cid]
        show (dictRank rest cid).map (fun n => n + 1) = none
        rw [ih htail, if_neg hmem]
        rfl
      rw [hstep, alistLookup_append_of_none _ hlk]
      by_cases ha : a = cid
      · rw [alistLookup_cons, if_pos ha, if_pos (ha ▸ List.mem_cons_self a rest)]
        rw [posOf, if_pos ha]
      · rw [alistLookup_cons, if_neg ha, if_neg ?_]
        · rfl
        · intro hc
          rcases List.mem_cons.mp hc with hc | hc
          · exact ha hc.symm
          · exact hmem hc

theorem mem_rankAssignments_one_le {ids : List String} {cid : String} {n : ℕ}
    (h : (cid, n) ∈ rankAssignments ids) : 1 ≤ n := by
  induction ids generalizing n with
  | nil => cases h
  | cons a rest ih =>
    rw [rankAssignments] at h
    rcases List.mem_cons.mp h with h1 | h2
    · cases h1
      exact le_refl 1
    · obtain ⟨p, _, hp⟩ := List.mem_map.mp h2
      cases hp
      exact Nat.le_add_left 1 p.2

theorem one_le_chanRank (hits : List SearchHit) (cid : String) :
    1 ≤ chanRank hits cid := by
  unfold chanRank
  rcases hd : dictRank (hits.map (fun x => x.child_id)) cid with _ | n
  · rw [hd]
    exact Nat.succ_le_succ (Nat.zero_le _)
  · rw [hd]
    show 1 ≤ n
    have hmem := alistLookup_mem hd
    rw [List.mem_reverse] at hmem
    exact mem_rankAssignments_one_le hmem

theorem chanRank_eq_of_nodup {hits : List SearchHit}
    (h : (hits.map (fun x => x.child_id)).Nodup) (cid : String) :
    chanRank hits cid = posOf (hits.map (fun x => x.child_id)) cid + 1 := by
  unfold chanRank
  rw [dictRank_eq_of_nodup h]
  by_cases hm : cid ∈ hits.map (fun x => x.child_id)
  · rw [if_pos hm]
    rfl
  · rw [if_neg hm, posOf_eq_length_of_not_mem hm, List.length_map]
    rfl

theorem applyScores_child_id (acc h : SearchHit) :
    (applyScores acc h).child_id = acc.child_id := by
  unfold applyScores
  split <;> split <;> rfl

theorem applyScores_child_text (acc h : SearchHit) :
    (applyScores acc h).child_text = acc.child_text := by
  unfold applyScores
  split <;> split <;> rfl

theorem foldl_applyScores_child_id (l : List SearchHit) (acc : SearchHit) :
    (l.foldl applyScores acc).child_id = acc.child_id := by
  induction l generalizing acc with
  | nil => rfl
  | cons h rest ih => rw [List.foldl_cons, ih, applyScores_child_id]

theorem foldl_applyScores_child_text (l : List SearchHit) (acc : SearchHit) :
    (l.foldl applyScores acc).child_text = acc.child_text := by
  induction l generalizing acc with
  | nil => rfl
  | cons h rest ih => rw [List.foldl_cons, ih, applyScores_child_text]

theorem hitData_child_id (hits : List SearchHit) (cid : String) :
    (hitData hits cid).child_id = cid := by
  unfold hitData
  rcases hf : hits.filter (fun h => h.child_id == cid) with _ | ⟨m, rest⟩
  · rw [hf]
  · rw [hf]
    have hm : m ∈ hits.filter (fun h => h.child_id == cid) := by
      rw [hf]
      exact List.mem_cons_self m rest
    have hmid : m.child_id = cid := by
      have := (List.mem_filter.mp hm).2
      exact beq_iff_eq.mp this
    show (List.foldl applyScores _ (m :: rest)).child_id = cid
    rw [foldl_applyScores_child_id]
    exact hmid

theorem hitData_child_text_mem {hits : List SearchHit} {cid : String}
    (hmem : ∃ h ∈ hits, h.child_id = cid) :
    ∃ h ∈ hits, (hitData hits cid).child_text = h.child_text := by
  unfold hitData
  rcases hf : hits.filter (fun h => h.child_id == cid) with _ | ⟨m, rest⟩
  · exfalso
    obtain ⟨h, hh, hid⟩ := hmem
    have hhf : h ∈ hits.filter (fun x => x.child_id == cid) :=
      List.mem_filter.mpr ⟨hh, beq_iff_eq.mpr hid⟩
    rw [hf] at hhf
    cases hhf
  · rw [hf]
    have hm : m ∈ hits.filter (fun h => h.child_id == cid) := by
      rw [hf]
      exact List.mem_cons_self m rest
    refine ⟨m, (List.mem_filter.mp hm).1, ?_⟩
    show (List.foldl applyScores _ (m :: rest)).child_text = m.child_text
    rw [foldl_applyScores_child_text]

theorem mergeEntry_child_id (s b : List SearchHit) (sw bw : ℚ) (cid : String) :
    (mergeEntry s b sw bw cid).child_id = cid :=
  hitData_child_id (s ++ b) cid

theorem mergeEntry_combined (s b : List SearchHit) (sw bw : ℚ) (cid : String) :
    (mergeEntry s b sw bw cid).combined_score =
      sw / (60 + (chanRank s cid : ℚ)) + bw / (60 + (chanRank b cid : ℚ)) := rfl

theorem mergeFull_map_child_id_perm (s b : List SearchHit) (sw bw : ℚ) :
    List.Perm ((mergeFull s b sw bw).map (fun e => e.child_id))
      (((s ++ b).map (fun h => h.child_id)).dedup) := by
  have hperm := (perm_sortByKeyDesc (fun e : Fused => e.combined_score)
    (((((s ++ b).map (fun h => h.child_id)).dedup)).map
      (mergeEntry s b sw bw))).map (fun e => e.child_id)
  refine hperm.trans ?_
  rw [List.map_map]
  have : ((fun e : Fused => e.child_id) ∘ mergeEntry s b sw bw) = id := by
    funext cid
    exact mergeEntry_child_id s b sw bw cid
  rw [this, List.map_id]

theorem mem_mergeFull (s b : List SearchHit) (sw bw : ℚ) {e : Fused}
    (he : e ∈ mergeFull s b sw bw) :
    ∃ cid ∈ (((s ++ b).map (fun h => h.child_id)).dedup),
      e = mergeEntry s b sw bw cid := by
  have hmem := (perm_sortByKeyDesc (fun e : Fused => e.combined_score)
    (((((s ++ b).map (fun h => h.child_id)).dedup)).map
      (mergeEntry s b sw bw))).mem_iff.mp he
  obtain ⟨cid, hcid, hec⟩ := List.mem_map.mp hmem
  exact ⟨cid, hcid, hec.symm⟩

theorem mergeEntry_combined_le (s b : List SearchHit) {sw bw : ℚ} (cid : String)
    (h1 : 0 ≤ sw) (h2 : 0 ≤ bw) :
    (mergeEntry s b sw bw cid).combined_score ≤ (sw + bw) / 61 := by
  rw [mergeEntry_combined]
  have hr1 : (61 : ℚ) ≤ 60 + (chanRank s cid : ℚ) := by
    have := one_le_chanRank s cid
    have hc : (1 : ℚ) ≤ (chanRank s cid : ℚ) := by exact_mod_cast this
    linarith
  have hr2 : (61 : ℚ) ≤ 60 + (chanRank b cid : ℚ) := by
    have := one_le_chanRank b cid
    have hc : (1 : ℚ) ≤ (chanRank b cid : ℚ) := by exact_mod_cast this
    linarith
  have hb1 : sw / (60 + (chanRank s cid : ℚ)) ≤ sw / 61 :=
    div_le_div_of_nonneg_left h1 (by norm_num) hr1
  have hb2 : bw / (60 + (chanRank b cid : ℚ)) ≤ bw / 61 :=
    div_le_div_of_nonneg_left h2 (by norm_num) hr2
  calc sw / (60 + (chanRank s cid : ℚ)) + bw / (60 + (chanRank b cid : ℚ))
      ≤ sw / 61 + bw / 61 := add_le_add hb1 hb2
    _ = (sw + bw) / 61 := by ring

/-- Claim C2. For every pair of ranked hit lists (with distinct ids within each
channel, as the channels return) and weights, fusion assigns each distinct
`child_id` the score
`semantic_weight/(60 + rank_semantic) + bm25_weight/(60 + rank_bm25)`, where
rank is the 1-indexed position in that channel's list and, for a `child_id`
absent from a list, `posOf` returns the list's length so the rank becomes
`len(list) + 1`; the output is sorted by this combined score descending and
truncated to at most `RERANK_CANDIDATES = 20` entries.  In particular, an
item ranked 1st in both channels with weights `(0.6, 0.4)` gets
`combined_score = 0.6/61 + 0.4/61`. -/
theorem claim_C2_rrf_fusion (s b : List SearchHit) (sw bw : ℚ)
    (hs : (s.map (fun h => h.child_id)).Nodup)
    (hb : (b.map (fun h => h.child_id)).Nodup) :
    (∀ e ∈ mergeFull s b sw bw,
      e.combined_score =
        sw / (60 + ((posOf (s.map (fun h => h.child_id)) e.child_id + 1 : ℕ) : ℚ))
          + bw / (60 + ((posOf (b.map (fun h => h.child_id)) e.child_id + 1 : ℕ) : ℚ)))
    ∧ List.Perm ((mergeFull s b sw bw).map (fun e => e.child_id))
        (((s ++ b).map (fun h => h.child_id)).dedup)
    ∧ ((mergeResults s b RERANK_CANDIDATES sw bw).Pairwise
        (fun a b => b.combined_score ≤ a.combined_score))
    ∧ (mergeResults s b RERANK_CANDIDATES sw bw).length ≤ RERANK_CANDIDATES
    ∧ RERANK_CANDIDATES = 20
    ∧ (∀ h : SearchHit, (mergeFull [h] [h] (3/5) (2/5)).map (fun e => e.combined_score)
        = [3/5/61 + 2/5/61]) := by
  refine ⟨?_, mergeFull_map_child_id_perm s b sw bw, ?_, ?_, rfl, ?_⟩
  · intro e he
    obtain ⟨cid, hcid, rfl⟩ := mem_mergeFull s b sw bw he
    rw [mergeEntry_combined, mergeEntry_child_id, chanRank_eq_of_nodup hs,
      chanRank_eq_of_nodup hb]
  · exact (sorted_sortByKeyDesc _ _).sublist (List.take_sublist _ _)
  · exact List.length_take_le _ _
  · intro h
    have hded : ((([h] ++ [h]).map (fun x => x.child_id))).dedup = [h.child_id] := by
      show ([h.child_id, h.child_id]).dedup = [h.child_id]
      rw [List.dedup_cons_of_mem (List.mem_singleton_self _)]
      simp
    have hcr : chanRank [h] h.child_id = 1 := by
      rw [chanRank_eq_of_nodup (show ([h].map (fun x => x.child_id)).Nodup from
        List.nodup_singleton _)]
      show posOf [h.child_id] h.child_id + 1 = 1
      rw [posOf, if_pos rfl]
    unfold mergeFull
    rw [hded]
    show [(mergeEntry [h] [h] (3/5) (2/5) h.child_id).combined_score] = _
    rw [mergeEntry_combined, hcr]
    norm_num

/-- Witness for C2: the closed form at a concrete hit ranked first in both
channels, obtained from the claim theorem with the channel id lists checked
to be duplicate-free. -/
theorem claim_C2_rrf_fusion_witness :
    (mergeFull [c2hit] [c2hit] (3/5) (2/5)).map (fun e => e.combined_score)
      = [3/5/61 + 2/5/61] :=
  (claim_C2_rrf_fusion [c2hit] [c2hit] (3/5) (2/5)
    (by with_unfolding_all decide) (by with_unfolding_all decide)).2.2.2.2.2 c2hit

/-! ### Lemmas about single-channel fusion and the no-reranker search -/

theorem dictRank_nil (cid : String) : dictRank [] cid = none := rfl

theorem mergeEntry_origin_left_empty (b : List SearchHit) (sw bw : ℚ) (cid : String) :
    (mergeEntry [] b sw bw cid).origin = "bm25" := rfl

theorem mergeEntry_origin_right_empty (s : List SearchHit) (sw bw : ℚ) {cid : String}
    (h : cid ∈ s.map (fun x => x.child_id)) :
    (mergeEntry s [] sw bw cid).origin = "semantic" := by
  have h1 : (dictRank (s.map (fun x => x.child_id)) cid).isSome = true :=
    (dictRank_isSome_iff _ _).mpr h
  unfold mergeEntry
  simp [h1, dictRank_nil]

theorem mem_resolveParents_toFused {store : String → Option String} {cands : List Fused}
    {r : Resolved} (hr : r ∈ resolveParents store cands) : r.toFused ∈ cands := by
  obtain ⟨hnd, hkeys, hent⟩ := bppInv_bestPerParent cands
  have hperm : List.Perm (resolveParents store cands)
      ((bestPerParent cands).map (fun p =>
        ({ toFused := p.2, parent_id := p.1,
           parent_text := (store p.1).getD p.2.child_text } : Resolved))) :=
    perm_sortByKeyDesc _ _
  obtain ⟨p, hp, hgp⟩ := List.mem_map.mp (hperm.mem_iff.mp hr)
  rw [← hgp]
  exact (hent p hp).1

theorem mem_searchNoRerank {s b : List SearchHit} {store : String → Option String}
    {k : ℕ} {sw bw : ℚ} {r : RankedResult}
    (hr : r ∈ searchNoRerank s b store k sw bw) :
    ∃ res ∈ resolveParents store (mergeResults s b RERANK_CANDIDATES sw bw),
      r = cleanResult res res.combined_score := by
  unfold searchNoRerank at hr
  rcases hc : mergeResults s b RERANK_CANDIDATES sw bw with _ | ⟨c0, crest⟩
  · rw [hc] at hr
    cases hr
  · rw [hc] at hr
    obtain ⟨res, hres, hclean⟩ := List.mem_map.mp hr
    refine ⟨res, ?_, hclean.symm⟩
    rw [← hc]
    rw [← hc] at hres
    exact List.take_subset _ _ hres

theorem mem_mergeResults_of_search {s b : List SearchHit} {store : String → Option String}
    {k : ℕ} {sw bw : ℚ} {r : RankedResult}
    (hr : r ∈ searchNoRerank s b store k sw bw) :
    ∃ res ∈ resolveParents store (mergeResults s b RERANK_CANDIDATES sw bw),
      r = cleanResult res res.combined_score ∧ res.toFused ∈ mergeFull s b sw bw := by
  obtain ⟨res, hres, hclean⟩ := mem_searchNoRerank hr
  refine ⟨res, hres, hclean, ?_⟩
  have h1 : res.toFused ∈ mergeResults s b RERANK_CANDIDATES sw bw :=
    mem_resolveParents_toFused hres
  exact List.take_subset _ _ h1

/-- Claim C6. If the semantic channel returns an empty list while the keyword
channel returns hits (or vice versa), fusion and the pipeline proceed and the
final results derive solely from the non-empty channel, with no exception
raised (all functions are total); if both channels return empty, `search`
returns an empty result list and `verified_query` on it reports level LOW
with a reasoning string explaining the failure. -/
theorem claim_C6_single_channel_degradation (pats : VendorPatterns) (now q : String) :
    (∀ (b : List SearchHit) (sw bw : ℚ), ∀ e ∈ mergeFull [] b sw bw,
        e.origin = "bm25" ∧ e.child_id ∈ b.map (fun h => h.child_id))
    ∧ (∀ (s : List SearchHit) (sw bw : ℚ), ∀ e ∈ mergeFull s [] sw bw,
        e.origin = "semantic" ∧ e.child_id ∈ s.map (fun h => h.child_id))
    ∧ (∀ (b : List SearchHit) (store : String → Option String) (k : ℕ) (sw bw : ℚ),
        ∀ r ∈ searchNoRerank [] b store k sw bw, ∃ h ∈ b, r.child_text = h.child_text)
    ∧ (∀ (store : String → Option String) (k : ℕ) (sw bw : ℚ),
        searchNoRerank [] [] store k sw bw = [])
    ∧ (verifiedQuery pats now q []).confidence.level = "LOW"
    ∧ (verifiedQuery pats now q []).confidence.reasoning = emptyReasoning := by
  refine ⟨?_, ?_, ?_, fun store k sw bw => rfl, rfl, rfl⟩
  · intro b sw bw e he
    obtain ⟨cid, hcid, rfl⟩ := mem_mergeFull [] b sw bw he
    refine ⟨mergeEntry_origin_left_empty b sw bw cid, ?_⟩
    rw [mergeEntry_child_id]
    have := List.mem_dedup.mp hcid
    rwa [List.nil_append] at this
  · intro s sw bw e he
    obtain ⟨cid, hcid, rfl⟩ := mem_mergeFull s [] sw bw he
    have hmem : cid ∈ s.map (fun h => h.child_id) := by
      have := List.mem_dedup.mp hcid
      rwa [List.append_nil] at this
    refine ⟨mergeEntry_origin_right_empty s sw bw hmem, ?_⟩
    rw [mergeEntry_child_id]
    exact hmem
  · intro b store k sw bw r hr
    obtain ⟨res, hres, hclean, hfull⟩ := mem_mergeResults_of_search hr
    obtain ⟨cid, hcid, hentry⟩ := mem_mergeFull [] b sw bw hfull
    have hmem : cid ∈ b.map (fun h => h.child_id) := by
      have := List.mem_dedup.mp hcid
      rwa [List.nil_append] at this
    obtain ⟨h0, hh0, hid⟩ := List.mem_map.mp hmem
    obtain ⟨h1, hh1, htext⟩ := hitData_child_text_mem
      (show ∃ x ∈ ([] : List SearchHit) ++ b, x.child_id = cid from
        ⟨h0, by rwa [List.nil_append], hid⟩)
    refine ⟨h1, by rwa [List.nil_append] at hh1, ?_⟩
    rw [hclean]
    show res.child_text = h1.child_text
    have hct : res.toFused.child_text = h1.child_text := by
      rw [hentry]
      exact htext
    exact hct

/-- Witness for C6: a one-hit keyword channel with an empty semantic channel
yields a result carrying that hit's text. -/
theorem claim_C6_single_channel_degradation_witness :
    ∃ h ∈ [c2hit],
      ∃ r ∈ searchNoRerank [] [c2hit] c3store 10 (3/5) (2/5),
        r.child_text = h.child_text := by
  have hne : searchNoRerank [] [c2hit] c3store 10 (3/5) (2/5) ≠ [] := by
    intro h
    have hlen : (searchNoRerank [] [c2hit] c3store 10 (3/5) (2/5)).length = 1 := by
      with_unfolding_all rfl
    rw [h] at hlen
    exact absurd hlen (by decide)
  obtain ⟨h, hh, htext⟩ := (claim_C6_single_channel_degradation [] ("t") ("q")).2.2.1
    [c2hit] c3store 10 (3/5) (2/5)
    ((searchNoRerank [] [c2hit] c3store 10 (3/5) (2/5)).head hne)
    (List.head_mem hne)
  exact ⟨h, hh, _, List.head_mem hne, htext⟩

/-! ### Lemmas about the sigmoid -/

theorem sigmoid_pos (x : ℝ) : 0 < sigmoid x := by
  unfold sigmoid
  positivity

theorem sigmoid_lt_one (x : ℝ) : sigmoid x < 1 := by
  unfold sigmoid
  rw [div_lt_one (by positivity)]
  have := Real.exp_pos (-x)
  linarith

theorem sigmoid_mono {x y : ℝ} (h : x ≤ y) : sigmoid x ≤ sigmoid y := by
  unfold sigmoid
  have h1 : Real.exp (-y) ≤ Real.exp (-x) := Real.exp_le_exp.mpr (by linarith)
  have h2 : 0 < 1 + Real.exp (-y) := by positivity
  exact one_div_le_one_div_of_le h2 (by linarith)

/-- Claim C9. When reranking is enabled, each candidate's `rerank_score` is the
sigmoid `1/(1+exp(-logit))` of its cross-encoder logit, hence in `[0, 1]`,
and the results are re-sorted by `rerank_score` descending (sorting by the
logit, which the sigmoid's monotonicity makes the same order) and truncated
to `top_k`; when reranking is disabled, the stage is skipped and
`combined_score` is used as the stand-in `rerank_score`; in both cases the
returned list is non-increasing in the score field actually used. -/
theorem claim_C9_reranking (ce : String → String → ℚ) (query : String)
    (cands : List Resolved) (top_k : ℕ) :
    (∀ c : Resolved,
      rerankScore ce query c = sigmoid ((ce query c.parent_text : ℚ) : ℝ)
      ∧ 0 ≤ rerankScore ce query c ∧ rerankScore ce query c ≤ 1)
    ∧ ((rerank ce query cands top_k).Pairwise
        (fun a b => rerankScore ce query b ≤ rerankScore ce query a))
    ∧ (rerank ce query cands top_k).length ≤ top_k
    ∧ (∃ l, List.Perm l cands ∧ rerank ce query cands top_k = l.take top_k)
    ∧ (∀ (s b : List SearchHit) (store : String → Option String) (k : ℕ) (sw bw : ℚ),
        (∀ r ∈ searchNoRerank s b store k sw bw, r.rerank_score = r.combined_score)
        ∧ (searchNoRerank s b store k sw bw).Pairwise
            (fun a b => b.rerank_score ≤ a.rerank_score)) := by
  refine ⟨?_, ?_, ?_, ?_, ?_⟩
  · intro c
    exact ⟨rfl, le_of_lt (sigmoid_pos _), le_of_lt (sigmoid_lt_one _)⟩
  · match cands with
    | [] => exact List.Pairwise.nil
    | c0 :: crest =>
      have hs := (sorted_sortByKeyDesc (fun c : Resolved => ce query c.parent_text)
        (c0 :: crest)).sublist (List.take_sublist top_k _)
      exact hs.imp (fun hab => sigmoid_mono (by exact_mod_cast hab))
  · match cands with
    | [] => exact Nat.zero_le top_k
    | c0 :: crest => exact List.length_take_le _ _
  · match cands with
    | [] =>
      exact ⟨[], List.Perm.refl [], by rw [List.take_nil]; rfl⟩
    | c0 :: crest =>
      exact ⟨sortByKeyDesc (fun c => ce query c.parent_text) (c0 :: crest),
        perm_sortByKeyDesc _ _, rfl⟩
  · intro s b store k sw bw
    constructor
    · intro r hr
      obtain ⟨res, _, rfl⟩ := mem_searchNoRerank hr
      rfl
    · unfold searchNoRerank
      rcases mergeResults s b RERANK_CANDIDATES sw bw with _ | ⟨c0, crest⟩
      · exact List.Pairwise.nil
      · refine List.pairwise_map.mpr ?_
        exact ((sorted_sortByKeyDesc (fun r : Resolved => r.combined_score)
          _).sublist (List.take_sublist k _)).imp (fun hab => roundQ4_mono hab)

/-- Witness for C9: the disabled-reranker path stamps `rerank_score` with
`combined_score` on the concrete one-hit pipeline. -/
theorem claim_C9_reranking_witness :
    ∃ r ∈ searchNoRerank [c9hit] [] c3store 7 (3/5) (2/5),
      r.rerank_score = r.combined_score := by
  have hne : searchNoRerank [c9hit] [] c3store 7 (3/5) (2/5) ≠ [] := by
    intro h
    have hlen : (searchNoRerank [c9hit] [] c3store 7 (3/5) (2/5)).length = 1 := by
      with_unfolding_all rfl
    rw [h] at hlen
    exact absurd hlen (by decide)
  exact ⟨_, List.head_mem hne, ((claim_C9_reranking (fun x y => 0) ("q") [] 5).2.2.2.2
    [c9hit] [] c3store 7 (3/5) (2/5)).1 _ (List.head_mem hne)⟩

/-- Claim C10, counterexample. Two failures of the claim as stated.  First,
the returned `combined_score` is rounded to four decimals, so for an item
ranked first in both channels under the default weights it is
`0.0164 > (0.6+0.4)/61`, violating the claimed upper bound.  Second, the
claim's hypothesis `semantic_weight + bm25_weight ≤ 1` admits negative
weights: with `(-999, 1000)` (sum exactly 1) a keyword-only hit scores
`≈ 0.536 ≥ 0.40`, so `assess_confidence` returns MEDIUM, not LOW. -/
theorem claim_C10_counterexample :
    ((searchNoRerank [c10hit] [c10hit] c10store 10 (3/5) (2/5)).map
        (fun r => r.combined_score) = [41/2500]
      ∧ ¬ ((41/2500 : ℚ) ≤ (3/5 + 2/5)/61))
    ∧ ((-999 : ℚ) + 1000 ≤ 1
      ∧ (assessConfidence [] (searchNoRerank [c10s1, c10s2] [c10x] c10store 10
          (-999) 1000)).level = "MEDIUM") := by
  refine ⟨⟨?_, by norm_num⟩, by norm_num, ?_⟩
  · have hlen1 : ((searchNoRerank [c10hit] [c10hit] c10store 10 (3/5) (2/5)).map
        (fun r => r.combined_score)).length = 1 := by
      with_unfolding_all rfl
    have hhead1 : ((searchNoRerank [c10hit] [c10hit] c10store 10 (3/5) (2/5)).map
        (fun r => r.combined_score)).head?
        = some (roundQ4 ((mergeEntry [c10hit] [c10hit] (3/5) (2/5)
            (c10hit.child_id)).combined_score)) := by
      with_unfolding_all rfl
    have hentry1 : (mergeEntry [c10hit] [c10hit] (3/5) (2/5)
        (c10hit.child_id)).combined_score = 1/61 := by
      with_unfolding_all decide
    have hround1 : roundQ4 (1/61) = 41/2500 := by
      norm_num [roundQ4, roundHalfEven]
    obtain ⟨a, ha⟩ := List.length_eq_one.mp hlen1
    rw [ha] at hhead1
    have h2 : some a = some (roundQ4 ((mergeEntry [c10hit] [c10hit] (3/5) (2/5)
        (c10hit.child_id)).combined_score)) := hhead1
    rw [ha, Option.some.inj h2, hentry1, hround1]
  · have hlen2 : (searchNoRerank [c10s1, c10s2] [c10x] c10store 10
        (-999) 1000).length = 3 := by
      with_unfolding_all rfl
    have hne2 : searchNoRerank [c10s1, c10s2] [c10x] c10store 10 (-999) 1000 ≠ [] := by
      intro h
      rw [h] at hlen2
      exact absurd hlen2 (by decide)
    have hhead2 : ((searchNoRerank [c10s1, c10s2] [c10x] c10store 10
          (-999) 1000).map (fun r => r.rerank_score)).head?
        = some (roundQ4 ((mergeEntry [c10s1, c10s2] [c10x] (-999) 1000
            (c10x.child_id)).combined_score)) := by
      with_unfolding_all rfl
    have hxval : (mergeEntry [c10s1, c10s2] [c10x] (-999) 1000
        (c10x.child_id)).combined_score = 229/427 := by
      with_unfolding_all decide
    have hxround : roundQ4 (229/427) = 5363/10000 := by
      norm_num [roundQ4, roundHalfEven]
    have hsrc2 : (searchNoRerank [c10s1, c10s2] [c10x] c10store 10 (-999) 1000).map
        (fun r => r.source) = ["unknown", "unknown", "unknown"] := by
      with_unfolding_all rfl
    obtain ⟨r0, rest, hL⟩ := List.exists_cons_of_ne_nil hne2
    have hr0 : r0.rerank_score = 5363/10000 := by
      rw [hL] at hhead2
      have h3 : some r0.rerank_score = some (roundQ4 ((mergeEntry [c10s1, c10s2]
          [c10x] (-999) 1000 (c10x.child_id)).combined_score)) := hhead2
      rw [Option.some.inj h3, hxval, hxround]
    have htop : MEDIUM_CONFIDENCE_THRESHOLD ≤ topScoreOf (r0 :: rest) := by
      refine le_trans ?_ (le_topScoreOf (List.mem_cons_self r0 rest))
      rw [hr0]
      unfold MEDIUM_CONFIDENCE_THRESHOLD
      norm_num
    have hnh : ¬ highCond (r0 :: rest) := by
      intro hc
      have hsv : sourcesOf (r0 :: rest) = ["unknown"] := by
        unfold sourcesOf
        rw [← hL, hsrc2]
        decide
      have h21 : (2 : ℕ) ≤ 1 := by
        have h22 := hc.2.2
        rwa [hsv] at h22
      exact absurd h21 (by decide)
    rw [hL, assessConfidence_cons]
    show (if highCond (r0 :: rest) then ("HIGH")
      else if MEDIUM_CONFIDENCE_THRESHOLD ≤ topScoreOf (r0 :: rest) then ("MEDIUM")
      else ("LOW")) = "MEDIUM"
    rw [if_neg hnh, if_pos htop]

/-- Claim C10, amended. For every query executed with `use_reranker = false`
and nonnegative weights with `semantic_weight + bm25_weight ≤ 1` (covering
the default `(0.60, 0.40)` and spec-pattern `(0.25, 0.75)` profiles), every
returned result's `rerank_score` equals its `combined_score`, which is
bounded above by `(semantic_weight + bm25_weight)/61 + 1/20000` (the
`1/20000` slack being the four-decimal rounding of the returned value) and
in particular is `< 0.40`; consequently `assess_confidence` on such results
always returns level LOW and a gap record is always logged. -/
theorem claim_C10_no_rerank_always_low (s b : List SearchHit)
    (store : String → Option String) (k : ℕ) (sw bw : ℚ) (pats : VendorPatterns)
    (now q : String) (h1 : 0 ≤ sw) (h2 : 0 ≤ bw) (h3 : sw + bw ≤ 1) :
    (∀ r ∈ searchNoRerank s b store k sw bw,
      r.rerank_score = r.combined_score
      ∧ r.combined_score ≤ (sw + bw)/61 + 1/20000
      ∧ r.combined_score < MEDIUM_CONFIDENCE_THRESHOLD)
    ∧ (assessConfidence pats (searchNoRerank s b store k sw bw)).level = "LOW"
    ∧ (verifiedQuery pats now q (searchNoRerank s b store k sw bw)).gap_logged
        = true := by
  have hieach : ∀ r ∈ searchNoRerank s b store k sw bw,
      r.rerank_score = r.combined_score
      ∧ r.combined_score ≤ (sw + bw)/61 + 1/20000
      ∧ r.combined_score < MEDIUM_CONFIDENCE_THRESHOLD := by
    intro r hr
    obtain ⟨res, hres, hclean, hfull⟩ := mem_mergeResults_of_search hr
    obtain ⟨cid, hcid, hentry⟩ := mem_mergeFull s b sw bw hfull
    have hcomb : res.combined_score ≤ (sw + bw)/61 := by
      show res.toFused.combined_score ≤ (sw + bw)/61
      rw [hentry]
      exact mergeEntry_combined_le s b cid h1 h2
    have hub : roundQ4 res.combined_score ≤ (sw + bw)/61 + 1/20000 :=
      le_trans (roundQ4_le _) (by linarith)
    have hlt : roundQ4 res.combined_score < MEDIUM_CONFIDENCE_THRESHOLD := by
      have hd61 : (sw + bw)/61 ≤ 1/61 := by
        rw [div_le_div_iff_of_pos_right (by norm_num : (0:ℚ) < 61)]
        exact h3
      have hnum : (1:ℚ)/61 + 1/20000 < 2/5 := by norm_num
      unfold MEDIUM_CONFIDENCE_THRESHOLD
      linarith [roundQ4_le res.combined_score]
    rw [hclean]
    exact ⟨rfl, hub, hlt⟩
  refine ⟨hieach, ?_, ?_⟩
  · rcases hres : searchNoRerank s b store k sw bw with _ | ⟨r0, rrest⟩
    · rfl
    · rw [assessConfidence_cons]
      have htop : topScoreOf (r0 :: rrest) < MEDIUM_CONFIDENCE_THRESHOLD := by
        refine topScoreOf_lt ?_ (List.cons_ne_nil r0 rrest)
        intro x hx
        have hin : x ∈ searchNoRerank s b store k sw bw := by
          rw [hres]
          exact hx
        obtain ⟨heq, _, hlt⟩ := hieach x hin
        rw [heq]
        exact hlt
      have hnh : ¬ highCond (r0 :: rrest) := by
        intro hc
        have := hc.1
        unfold HIGH_CONFIDENCE_THRESHOLD at this
        unfold MEDIUM_CONFIDENCE_THRESHOLD at htop
        linarith
      have hnm : ¬ MEDIUM_CONFIDENCE_THRESHOLD ≤ topScoreOf (r0 :: rrest) :=
        not_le.mpr htop
      show (if highCond (r0 :: rrest) then ("HIGH")
        else if MEDIUM_CONFIDENCE_THRESHOLD ≤ topScoreOf (r0 :: rrest) then ("MEDIUM")
        else ("LOW")) = "LOW"
      rw [if_neg hnh, if_neg hnm]
  · have hlevel : (assessConfidence pats (searchNoRerank s b store k sw bw)).level
        = "LOW" := by
      rcases hres : searchNoRerank s b store k sw bw with _ | ⟨r0, rrest⟩
      · rfl
      · rw [assessConfidence_cons]
        have htop : topScoreOf (r0 :: rrest) < MEDIUM_CONFIDENCE_THRESHOLD := by
          refine topScoreOf_lt ?_ (List.cons_ne_nil r0 rrest)
          intro x hx
          have hin : x ∈ searchNoRerank s b store k sw bw := by
            rw [hres]
            exact hx
          obtain ⟨heq, _, hlt⟩ := hieach x hin
          rw [heq]
          exact hlt
        have hnh : ¬ highCond (r0 :: rrest) := by
          intro hc
          have := hc.1
          unfold HIGH_CONFIDENCE_THRESHOLD at this
          unfold MEDIUM_CONFIDENCE_THRESHOLD at htop
          linarith
        show (if highCond (r0 :: rrest) then ("HIGH")
          else if MEDIUM_CONFIDENCE_THRESHOLD ≤ topScoreOf (r0 :: rrest) then ("MEDIUM")
          else ("LOW")) = "LOW"
        rw [if_neg hnh, if_neg (not_le.mpr htop)]
    show decide ((assessConfidence pats (searchNoRerank s b store k sw bw)).level
      = "LOW") = true
    rw [hlevel]
    rfl

/-- Witness for the amended C10: the default-weight one-hit pipeline scores
below 0.40, classifies LOW and logs a gap. -/
theorem claim_C10_no_rerank_always_low_witness :
    (0:ℚ) ≤ 3/5 ∧ (0:ℚ) ≤ 2/5 ∧ (3:ℚ)/5 + 2/5 ≤ 1
    ∧ (assessConfidence [] (searchNoRerank [c10hit] [c10hit] c10store 10
        (3/5) (2/5))).level = "LOW"
    ∧ (verifiedQuery [] ("2026-01-01") ("q")
        (searchNoRerank [c10hit] [c10hit] c10store 10 (3/5) (2/5))).gap_logged
        = true := by
  refine ⟨by norm_num, by norm_num, by norm_num, ?_, ?_⟩
  · exact (claim_C10_no_rerank_always_low [c10hit] [c10hit] c10store 10 (3/5) (2/5)
      [] ("2026-01-01") ("q") (by norm_num) (by norm_num) (by norm_num)).2.1
  · exact (claim_C10_no_rerank_always_low [c10hit] [c10hit] c10store 10 (3/5) (2/5)
      [] ("2026-01-01") ("q") (by norm_num) (by norm_num) (by norm_num)).2.2

end Fluidoracle
